import Mathlib

/-!
Verification of the dependency materialization engine of
resolve-local-dependencies (lib/index.js, utils/log.js, bin/cli.js).

The filesystem is modelled as an association list from absolute paths
(lists of name segments) to objects (regular file with abstract byte
content, directory, or symbolic link).  Every filesystem-mutating or
process-spawning call of the source is recorded in an event trace, and
console output produced through utils/log.js is recorded as log events.
The JavaScript functions are translated one to one; the unbounded
recursion of copyRecursiveSync is driven by a fuel parameter, called with
enough fuel that it is never exhausted when the destination subtree is
disjoint from the source subtree (the only situation the program creates).
-/

/-- A path is the list of its name segments, from the filesystem root. -/
abbrev FPath := List String

/-- pathLe p q holds when p is an initial segment of q, that is, q is at or
below p in the directory tree. -/
def pathLe : FPath → FPath → Bool
  | [], _ => true
  | _ :: _, [] => false
  | a :: p, b :: q => if a = b then pathLe p q else false

/-- An object stored in the filesystem: a regular file with abstract byte
content, a directory, or a symbolic link. -/
inductive FSObj where
  | file (content : Nat)
  | dir
  | symlink
deriving DecidableEq, Inhabited

/-- The filesystem: a finite association list from paths to objects. -/
abbrev FS := List (FPath × FSObj)

/-- First-match lookup in the filesystem. -/
def lookupFS : FS → FPath → Option FSObj
  | [], _ => none
  | e :: rest, p => if e.1 = p then some e.2 else lookupFS rest p

/-- Replace the first entry at the given path, or append a new one. -/
def setFS : FS → FPath → FSObj → FS
  | [], p, o => [(p, o)]
  | e :: rest, p, o => if e.1 = p then (p, o) :: rest else e :: setFS rest p o

/-- fs.existsSync: the path is present in the filesystem. -/
def existsSync (fs : FS) (p : FPath) : Bool :=
  (lookupFS fs p).isSome

/-- fs.lstatSync(p).isSymbolicLink(). -/
def isSymbolicLink (fs : FS) (p : FPath) : Bool :=
  decide (lookupFS fs p = some FSObj.symlink)

/-- fs.statSync(p).isDirectory(). -/
def isDirectory (fs : FS) (p : FPath) : Bool :=
  decide (lookupFS fs p = some FSObj.dir)

/-- If q is a direct child of p, return its name. -/
def childName : FPath → FPath → Option String
  | [], [n] => some n
  | [], _ => none
  | _ :: _, [] => none
  | a :: p, b :: q => if a = b then childName p q else none

/-- fs.readdirSync(p): the names of the direct children of p present in the
filesystem, in entry order. -/
def readdirSync (fs : FS) (p : FPath) : List String :=
  fs.filterMap fun e => childName p e.1

/-- One step of recursive directory creation: create the truncation of p of
length k + 1 when it is missing. -/
def mkdirStep (p : FPath) (acc : FS) (k : Nat) : FS :=
  let t := p.take (k + 1)
  if existsSync acc t then acc else acc ++ [(t, FSObj.dir)]

/-- fs.mkdirSync(p, recursive true): create every missing directory along
the path, including p itself. -/
def mkdirSyncRec (fs : FS) (p : FPath) : FS :=
  (List.range p.length).foldl (mkdirStep p) fs

/-- fs.rmSync(p, recursive true, force true): remove p and everything below
it; removing a missing path is not an error. -/
def rmSyncRec (fs : FS) (p : FPath) : FS :=
  fs.filter fun e => !(pathLe p e.1)

/-- fs.copyFileSync(s, d): copy the byte content of the regular file at s to
d, overwriting d if present.  The content copied from a non-file source is
not specified by the system; the model picks 0 there. -/
def copyFileSync (fs : FS) (s d : FPath) : FS :=
  match lookupFS fs s with
  | some (FSObj.file c) => setFS fs d (FSObj.file c)
  | _ => setFS fs d (FSObj.file 0)

/-- fs.readFileSync(p): the content of the regular file at p, none when the
path is missing or not a regular file (the call throws there). -/
def readFileSync (fs : FS) (p : FPath) : Option Nat :=
  match lookupFS fs p with
  | some (FSObj.file c) => some c
  | _ => none

/-- An observable step of the program: a filesystem mutation, an external
process invocation, or a line of console output. -/
inductive Event where
  | mkdir (p : FPath)
  | rm (p : FPath)
  | copyFile (s d : FPath)
  | spawn (cmd : String) (args : List String) (cwd : FPath)
  | log (message level : String)
deriving DecidableEq

/-- utils/log.js: log(message, level, silently) writes to the console only
when not silenced; the model returns the console events produced. -/
def log (message level : String) (silently : Bool) : List Event :=
  if silently then [] else [Event.log message level]

/-- Events that mutate the store or invoke the installer (everything except
console output). -/
def isMutation : Event → Bool
  | Event.log _ _ => false
  | _ => true

/-- External process invocations. -/
def isSpawn : Event → Bool
  | Event.spawn _ _ _ => true
  | _ => false

/-- Store entry removals. -/
def isRm : Event → Bool
  | Event.rm _ => true
  | _ => false

/-- Render a path the way the source interpolates it into messages. -/
def pathToString (p : FPath) : String :=
  String.intercalate "/" p

/-- path.basename. -/
def basename (p : FPath) : String :=
  p.getLastD ""

/-- lib/index.js copyRecursiveSync(src, dest): ensure dest exists, then for
every entry directly inside src recurse into directories and copy files.
The fuel parameter only drives the recursion; the program always supplies
enough of it (see the lemmas below). -/
def copyRecursiveSync (fuel : Nat) (src dest : FPath) (st : FS × List Event) :
    FS × List Event :=
  match fuel with
  | 0 => st
  | fuel + 1 =>
    let st0 :=
      if existsSync st.1 dest then st
      else (mkdirSyncRec st.1 dest, st.2 ++ [Event.mkdir dest])
    (readdirSync st0.1 src).foldl
      (fun st file =>
        let srcPath := src ++ [file]
        let destPath := dest ++ [file]
        if isDirectory st.1 srcPath then
          copyRecursiveSync fuel srcPath destPath st
        else
          (copyFileSync st.1 srcPath destPath,
            st.2 ++ [Event.copyFile srcPath destPath]))
      st0

/-- The forEach body of copyRecursiveSync for one directory entry, with the
recursion at the given fuel. -/
def copyStep (fuel : Nat) (src dest : FPath) (st : FS × List Event)
    (file : String) : FS × List Event :=
  let srcPath := src ++ [file]
  let destPath := dest ++ [file]
  if isDirectory st.1 srcPath then
    copyRecursiveSync fuel srcPath destPath st
  else
    (copyFileSync st.1 srcPath destPath,
      st.2 ++ [Event.copyFile srcPath destPath])

/-- A JSON value as found in a dependency group of the manifest. -/
inductive JSValue where
  | str (s : String)
  | num (n : Int)
  | boolean (b : Bool)
  | null
deriving DecidableEq

/-- A JavaScript object: an ordered association list of fields. -/
abbrev JSObj := List (String × JSValue)

/-- First-match field lookup in an ordered association list. -/
def lookupKey {α : Type} : List (String × α) → String → Option α
  | [], _ => none
  | e :: rest, k => if e.1 = k then some e.2 else lookupKey rest k

/-- The object spread expression with two operands: the fields of a in
order, with values overridden by b on collision, followed by the fields of
b that are new. -/
def spreadMerge (a b : JSObj) : JSObj :=
  (a.map fun e =>
    match lookupKey b e.1 with
    | some w => (e.1, w)
    | none => e) ++
  b.filter fun e => (lookupKey a e.1).isNone

/-- The parsed package.json manifest: its four optional dependency groups. -/
structure Manifest where
  dependencies : Option JSObj
  devDependencies : Option JSObj
  peerDependencies : Option JSObj
  optionalDependencies : Option JSObj

/-- The allDeps object of unlinkLocalDependencies: the four groups spread in
order dependencies, devDependencies, peerDependencies,
optionalDependencies, each defaulting to the empty object. -/
def mergedDeps (pkg : Manifest) : JSObj :=
  spreadMerge
    (spreadMerge
      (spreadMerge (pkg.dependencies.getD []) (pkg.devDependencies.getD []))
      (pkg.peerDependencies.getD []))
    (pkg.optionalDependencies.getD [])

/-- version.startsWith, on the character list of the string (the byte-based
core primitive does not reduce in proofs; on the list of characters the
test is the same function). -/
def strStartsWith (s pre : String) : Bool :=
  decide (s.data.take pre.data.length = pre.data)

/-- The filter of unlinkLocalDependencies: typeof version is string and the
string starts with the file reference marker. -/
def isFileSpec : JSValue → Bool
  | JSValue.str s => strStartsWith s "file:"
  | _ => false

/-- version.replace anchored at the start: drop the file reference marker
(five characters) when present. -/
def stripFileMarker (s : String) : String :=
  if strStartsWith s "file:" then String.mk (s.data.drop 5) else s

/-- Read a boolean field of a JavaScript options object, defaulting to
false when the field is absent (destructuring with a default). -/
def getBoolOpt (opts : List (String × Bool)) (key : String) : Bool :=
  match lookupKey opts key with
  | some b => b
  | none => false

/-- The ambient collaborators of the engine: the project root directory,
the path.resolve closure over the project root, the JSON parser for the
manifest file content, and the exit status of the external npm process by
working directory. -/
structure Env where
  projectRoot : FPath
  resolve : String → FPath
  parse : Nat → Option Manifest
  status : FPath → Int

/-- lib/index.js installDependencies(dest, dev, silent): skip when dest has
no package.json or already has a node_modules directory; otherwise spawn
npm install with no audit and no funding steps, appending the production
flag when dev is false, in working directory dest; a non-zero exit status
is logged as an error and the function returns normally. -/
def installDependencies (env : Env) (dest : FPath) (dev silent : Bool)
    (fs : FS) (tr : List Event) : FS × List Event :=
  let pkgPath := dest ++ ["package.json"]
  if !(existsSync fs pkgPath) then
    (fs, tr ++ log ("[SKIP] No package.json in " ++ pathToString dest) "log" silent)
  else
    let nmPath := dest ++ ["node_modules"]
    if existsSync fs nmPath then
      (fs, tr ++ log ("[SKIP] Dependencies already present for " ++ basename dest) "log" silent)
    else
      let args :=
        if dev then ["install", "--no-audit", "--no-fund"]
        else ["install", "--no-audit", "--no-fund", "--production"]
      let tr := tr ++ log ("[INSTALL] Running npm " ++ String.intercalate " " args ++ " in " ++ basename dest) "log" silent
      let tr := tr ++ [Event.spawn "npm" args dest]
      if env.status dest ≠ 0 then
        (fs, tr ++ log ("[ERROR] Failed to install dependencies for " ++ basename dest) "error" silent)
      else
        (fs, tr)

/-- The forEach body of unlinkLocalDependencies for one filtered dependency:
resolve the source, compute the store entry, warn and skip when the entry
is missing, skip when it is not a symbolic link, otherwise remove it,
recopy the source tree and, unless noInstall, install into the copy. -/
def processDep (env : Env) (silent noInstall dev : Bool)
    (st : FS × List Event) (dep : String × JSValue) : FS × List Event :=
  let fs := st.1
  let tr := st.2
  let pkgName := dep.1
  let versionStr := match dep.2 with | JSValue.str s => s | _ => ""
  let relativePath := stripFileMarker versionStr
  let src := env.resolve relativePath
  let dest := env.projectRoot ++ ["node_modules", pkgName]
  if !(existsSync fs dest) then
    (fs, tr ++ log ("[WARN] " ++ pkgName ++ " not found in node_modules") "warn" silent)
  else if !(isSymbolicLink fs dest) then
    (fs, tr ++ log ("[SKIP] " ++ pkgName ++ " is not a symlink") "log" silent)
  else
    let tr := tr ++ log ("[REPLACE] " ++ pkgName ++ ": replacing symlink with copy from " ++ relativePath) "log" silent
    let fs1 := rmSyncRec fs dest
    let tr := tr ++ [Event.rm dest]
    let st1 := copyRecursiveSync (fs1.length + 1) src dest (fs1, tr)
    if noInstall then st1
    else installDependencies env dest dev silent st1.1 st1.2

/-- lib/index.js unlinkLocalDependencies(options): destructure the options
object, read and parse the manifest (both failures throw, modelled as the
error case), merge the four dependency groups, filter to file-path string
specifiers, and process each in order starting from an empty trace. -/
def unlinkLocalDependencies (env : Env) (opts : List (String × Bool))
    (fs : FS) : Except String (FS × List Event) :=
  let silent := getBoolOpt opts "silent"
  let noInstall := getBoolOpt opts "noInstall"
  let dev := getBoolOpt opts "dev"
  let pkgJsonPath := env.projectRoot ++ ["package.json"]
  match readFileSync fs pkgJsonPath with
  | none => Except.error "ENOENT: no such file or directory"
  | some content =>
    match env.parse content with
    | none => Except.error "Unexpected token in JSON"
    | some pkg =>
      Except.ok
        (((mergedDeps pkg).filter fun e => isFileSpec e.2).foldl
          (processDep env silent noInstall dev) (fs, []))

/-- bin/cli.js: the options object the CLI builds and passes to
unlinkLocalDependencies.  Note the field names it uses. -/
def cliOptions (args : List String) : List (String × Bool) :=
  [("silently", args.contains "--silent"),
   ("install", args.contains "--no-install"),
   ("dev", args.contains "--dev")]

/-- The usage text of bin/cli.js (trimmed). -/
def usageText : String :=
  "Usage: resolve-local-dependencies [options]\n\nOptions:\n  -h, --help         Show this help message\n  --silent           Suppress non-error output\n  --no-install       Skip npm install after unlinking\n  --dev              Use development mode (include devDependencies)"

/-- The outcome of a CLI run: the process exit status, the final
filesystem, and the full event trace. -/
structure CliResult where
  exitCode : Nat
  fs : FS
  output : List Event

/-- bin/cli.js: handle the help flags, otherwise call
unlinkLocalDependencies with the CLI options object, print a success
message and exit 0, or catch the error, print it and exit 1. -/
def runCli (env : Env) (args : List String) (fs : FS) : CliResult :=
  if args.contains "--help" || args.contains "-h" then
    { exitCode := 0, fs := fs, output := log usageText "log" false }
  else
    let silently := args.contains "--silent"
    match unlinkLocalDependencies env (cliOptions args) fs with
    | Except.ok (fs1, tr) =>
      { exitCode := 0, fs := fs1,
        output := tr ++ log "Local dependencies unlinked successfully." "log" silently }
    | Except.error e =>
      { exitCode := 1, fs := fs,
        output := log ("Error unlinking local dependencies: " ++ e) "error" silently }

/-- No entry of the filesystem lies at or below p. -/
def freshUnder (fs : FS) (p : FPath) : Bool :=
  fs.all fun e => !(pathLe p e.1)

/-- No entry at or below p is a symbolic link. -/
def noSymUnder (fs : FS) (p : FPath) : Bool :=
  fs.all fun e => !(pathLe p e.1) || decide (e.2 ≠ FSObj.symlink)

/-- The number of filesystem entries strictly below p. -/
def countUnder (fs : FS) (p : FPath) : Nat :=
  (fs.filter fun e => pathLe p e.1 && decide (p.length < e.1.length)).length

/-- The entries of the filesystem at or below p, in order. -/
def subFS (fs : FS) (p : FPath) : FS :=
  fs.filter fun e => pathLe p e.1

/-- Every proper nonempty truncation of rel names a directory below base:
the chain of parents of base ++ rel down from base exists. -/
def chainFS (fs : FS) (base : FPath) (rel : FPath) : Bool :=
  (List.range rel.length).all fun k =>
    decide (k = 0) || decide (lookupFS fs (base ++ rel.take k) = some FSObj.dir)

/-- Every file copy in the trace is preceded by the creation of the
directory it is copied into. -/
def OrderedTrace (tr : List Event) : Prop :=
  ∀ i s d, tr.get? i = some (Event.copyFile s d) →
    ∃ j, j < i ∧ tr.get? j = some (Event.mkdir d.dropLast)

/-- The store entry of a dependency: project root, dependency store
directory, dependency name. -/
def storeEntry (env : Env) (name : String) : FPath :=
  env.projectRoot ++ ["node_modules", name]

/-- The npm arguments the installer passes: install, no audit, no funding,
and the production flag exactly when dev is false. -/
def npmArgs (dev : Bool) : List String :=
  if dev then ["install", "--no-audit", "--no-fund"]
  else ["install", "--no-audit", "--no-fund", "--production"]

/-- The version specifier as the string the filter saw: the string payload,
or the empty string for the unreachable non-string case. -/
def versionString : JSValue → String
  | JSValue.str s => s
  | _ => ""

/-- The state of the per-dependency step right after the stale symlink has
been removed and the source tree recopied, before the optional install:
the remove event, then the copy, on the filesystem with the entry removed. -/
def replacedState (env : Env) (silent : Bool) (fs : FS) (tr : List Event)
    (name : String) (v : JSValue) : FS × List Event :=
  copyRecursiveSync ((rmSyncRec fs (storeEntry env name)).length + 1)
    (env.resolve (stripFileMarker (versionString v)))
    (storeEntry env name)
    (rmSyncRec fs (storeEntry env name),
      tr ++ log ("[REPLACE] " ++ name ++ ": replacing symlink with copy from " ++
        stripFileMarker (versionString v))
        "log" silent ++ [Event.rm (storeEntry env name)])

/-! Basic facts about the path order. -/

theorem pathLe_iff (p q : FPath) : pathLe p q = true ↔ ∃ r, q = p ++ r := by
  induction p generalizing q with
  | nil => simp [pathLe]
  | cons a p ih =>
    cases q with
    | nil =>
      simp only [pathLe, List.cons_append]
      constructor
      · intro h; exact absurd h (by simp)
      · rintro ⟨r, hr⟩; exact absurd hr (by simp)
    | cons b q =>
      simp only [pathLe]
      constructor
      · intro h
        by_cases hab : a = b
        · subst hab
          rw [if_pos rfl] at h
          obtain ⟨r, hr⟩ := (ih q).1 h
          exact ⟨r, by simp [hr]⟩
        · rw [if_neg hab] at h
          exact absurd h (by simp)
      · rintro ⟨r, hr⟩
        rw [List.cons_append] at hr
        injection hr with h1 h2
        subst h1
        rw [if_pos rfl]
        exact (ih q).2 ⟨r, h2⟩

theorem pathLe_refl (p : FPath) : pathLe p p = true :=
  (pathLe_iff p p).2 ⟨[], by simp⟩

theorem pathLe_append (p r : FPath) : pathLe p (p ++ r) = true :=
  (pathLe_iff p (p ++ r)).2 ⟨r, rfl⟩

theorem pathLe_trans {p q r : FPath} (h1 : pathLe p q = true)
    (h2 : pathLe q r = true) : pathLe p r = true := by
  obtain ⟨u, hu⟩ := (pathLe_iff p q).1 h1
  obtain ⟨v, hv⟩ := (pathLe_iff q r).1 h2
  exact (pathLe_iff p r).2 ⟨u ++ v, by simp [hv, hu]⟩

theorem pathLe_length {p q : FPath} (h : pathLe p q = true) :
    p.length ≤ q.length := by
  obtain ⟨r, hr⟩ := (pathLe_iff p q).1 h
  simp [hr]

theorem pathLe_antisymm {p q : FPath} (h1 : pathLe p q = true)
    (h2 : pathLe q p = true) : p = q := by
  obtain ⟨u, hu⟩ := (pathLe_iff p q).1 h1
  have : u = [] := by
    have l1 := pathLe_length h1
    have l2 := pathLe_length h2
    have : q.length = p.length := le_antisymm l2 l1
    rw [hu, List.length_append] at this
    simpa using (by omega : u.length = 0)
  simp [hu, this]

theorem pathLe_comparable {p q r : FPath} (h1 : pathLe p r = true)
    (h2 : pathLe q r = true) : pathLe p q = true ∨ pathLe q p = true := by
  obtain ⟨u, hu⟩ := (pathLe_iff p r).1 h1
  obtain ⟨v, hv⟩ := (pathLe_iff q r).1 h2
  have hq : q = r.take q.length := by
    rw [hv]; simp
  have hp : p = r.take p.length := by
    rw [hu]; simp
  rcases le_total p.length q.length with hl | hl
  · left
    refine (pathLe_iff p q).2 ⟨(r.drop p.length).take (q.length - p.length), ?_⟩
    calc q = r.take q.length := hq
      _ = r.take p.length ++ (r.drop p.length).take (q.length - p.length) := by
          rw [← List.take_add]; congr 1; omega
      _ = p ++ (r.drop p.length).take (q.length - p.length) := by rw [← hp]
  · right
    refine (pathLe_iff q p).2 ⟨(r.drop q.length).take (p.length - q.length), ?_⟩
    calc p = r.take p.length := hp
      _ = r.take q.length ++ (r.drop q.length).take (p.length - q.length) := by
          rw [← List.take_add]; congr 1; omega
      _ = q ++ (r.drop q.length).take (p.length - q.length) := by rw [← hq]

theorem pathLe_snoc {p q : FPath} {n : String}
    (h : pathLe p (q ++ [n]) = true) : pathLe p q = true ∨ p = q ++ [n] := by
  obtain ⟨r, hr⟩ := (pathLe_iff p (q ++ [n])).1 h
  rcases List.eq_nil_or_concat r with hnil | ⟨r0, x, hx⟩
  · right; simp [hr, hnil]
  · left
    rw [hx, List.concat_eq_append, ← List.append_assoc] at hr
    have := List.append_inj' hr (by simp)
    exact (pathLe_iff p q).2 ⟨r0, this.1⟩

theorem pathLe_take {p : FPath} {k : Nat} : pathLe (p.take k) p = true :=
  (pathLe_iff (p.take k) p).2 ⟨p.drop k, (List.take_append_drop k p).symm⟩

theorem pathLe_of_take_eq {p q : FPath} (h : q = p.take q.length) :
    pathLe q p = true := by
  rw [h]; exact pathLe_take

theorem take_eq_of_pathLe {p q : FPath} (h : pathLe q p = true) :
    q = p.take q.length := by
  obtain ⟨r, hr⟩ := (pathLe_iff q p).1 h
  rw [hr]; simp

theorem pathLe_append_right {p q : FPath} (r : FPath)
    (h : pathLe p q = true) : pathLe p (q ++ r) = true :=
  pathLe_trans h (pathLe_append q r)

theorem pathLe_false_of_ne_child {pr : FPath} {a b : String} {r : FPath}
    (hab : a ≠ b) : pathLe (pr ++ [a]) (pr ++ [b] ++ r) = false := by
  cases hpl : pathLe (pr ++ [a]) (pr ++ [b] ++ r) with
  | false => rfl
  | true =>
    obtain ⟨u, hu⟩ := (pathLe_iff _ _).1 hpl
    rw [List.append_assoc, List.append_assoc] at hu
    have h2 := List.append_cancel_left hu
    injection h2 with h3
    exact absurd h3.symm hab

/-! Facts about lookup and the primitive filesystem operations. -/

theorem lookupFS_eq_none {fs : FS} {q : FPath} :
    lookupFS fs q = none ↔ ∀ e ∈ fs, e.1 ≠ q := by
  induction fs with
  | nil => simp [lookupFS]
  | cons e rest ih =>
    simp only [lookupFS]
    by_cases h : e.1 = q
    · simp [h]
    · simp [h, ih]

theorem lookupFS_ne_none {fs : FS} {q : FPath} :
    lookupFS fs q ≠ none ↔ ∃ e ∈ fs, e.1 = q := by
  rw [Ne, lookupFS_eq_none]
  push_neg
  rfl

theorem lookup_setFS (fs : FS) (p : FPath) (o : FSObj) (q : FPath) :
    lookupFS (setFS fs p o) q = if p = q then some o else lookupFS fs q := by
  induction fs with
  | nil => simp [setFS, lookupFS]
  | cons e rest ih =>
    by_cases he : e.1 = p
    · simp only [setFS, if_pos he, lookupFS]
      by_cases hq : p = q
      · simp [hq]
      · have : e.1 = q ↔ False := by
          constructor
          · intro h; exact hq (he ▸ h)
          · intro h; exact h.elim
        simp [hq, this]
    · simp only [setFS, if_neg he, lookupFS, ih]
      by_cases hq : e.1 = q
      · have : p = q ↔ False := by
          constructor
          · intro h; exact he (by rw [hq, h])
          · intro h; exact h.elim
        simp [hq, this]
      · simp [hq]

theorem lookup_filter_key (P : FPath → Bool) (fs : FS) (q : FPath) :
    lookupFS (fs.filter fun e => P e.1) q =
      if P q = true then lookupFS fs q else none := by
  induction fs with
  | nil => simp [lookupFS]
  | cons e rest ih =>
    simp only [List.filter_cons]
    by_cases hp : P e.1 = true
    · rw [if_pos hp]
      simp only [lookupFS]
      by_cases hq : e.1 = q
      · have hPq : P q = true := hq ▸ hp
        simp [hq, hPq]
      · simp [hq, ih]
    · rw [if_neg hp, ih]
      by_cases hq : e.1 = q
      · have hPq : P q = false := by
          rw [← hq]; exact Bool.eq_false_iff.2 hp
        simp [lookupFS, hq, hPq]
      · simp [lookupFS, hq]

theorem lookup_rmSyncRec (fs : FS) (p q : FPath) :
    lookupFS (rmSyncRec fs p) q =
      if pathLe p q = true then none else lookupFS fs q := by
  rw [rmSyncRec, lookup_filter_key (fun x => !(pathLe p x))]
  by_cases h : pathLe p q = true <;> simp [h]

theorem lookup_subFS (fs : FS) (s q : FPath) :
    lookupFS (subFS fs s) q =
      if pathLe s q = true then lookupFS fs q else none := by
  rw [subFS, lookup_filter_key (fun x => pathLe s x)]

theorem lookup_append_single (fs : FS) (p : FPath) (o : FSObj) (q : FPath) :
    lookupFS (fs ++ [(p, o)]) q =
      match lookupFS fs q with
      | some v => some v
      | none => if p = q then some o else none := by
  induction fs with
  | nil => simp [lookupFS]
  | cons e rest ih =>
    simp only [List.cons_append, lookupFS]
    by_cases hq : e.1 = q
    · simp [hq]
    · simp [hq, ih]

theorem lookup_mkdirStep (p : FPath) (acc : FS) (k : Nat) (q : FPath) :
    lookupFS (mkdirStep p acc k) q =
      if lookupFS acc q = none ∧ p.take (k + 1) = q then some FSObj.dir
      else lookupFS acc q := by
  unfold mkdirStep
  by_cases hex : existsSync acc (p.take (k + 1)) = true
  · simp only [hex, if_true]
    by_cases hq : p.take (k + 1) = q
    · have : lookupFS acc q ≠ none := by
        rw [← hq]
        rw [existsSync, Option.isSome_iff_ne_none] at hex
        exact hex
      simp [hq, this]
    · simp [hq]
  · simp only [Bool.not_eq_true] at hex
    simp only [hex, Bool.false_eq_true, if_false]
    rw [lookup_append_single]
    have hnone : lookupFS acc (p.take (k + 1)) = none := by
      rw [existsSync] at hex
      exact Option.not_isSome_iff_eq_none.1 (by simp [hex])
    cases hl : lookupFS acc q with
    | some v => simp [hl]
    | none =>
      by_cases hq : p.take (k + 1) = q
      · simp [hl, hq]
      · simp [hl, hq]

theorem mkdirFold_lookup (p : FPath) (ks : List Nat) (acc : FS) (q : FPath) :
    lookupFS (ks.foldl (mkdirStep p) acc) q =
      if lookupFS acc q = none ∧ ∃ k ∈ ks, p.take (k + 1) = q then
        some FSObj.dir
      else lookupFS acc q := by
  induction ks generalizing acc with
  | nil => simp
  | cons k ks ih =>
    simp only [List.foldl_cons]
    rw [ih, lookup_mkdirStep]
    by_cases h1 : lookupFS acc q = none
    · by_cases h2 : p.take (k + 1) = q
      · have : (∃ x ∈ k :: ks, p.take (x + 1) = q) := ⟨k, by simp, h2⟩
        simp [h1, h2, this]
      · have hmem : (∃ x ∈ k :: ks, p.take (x + 1) = q) ↔
            (∃ x ∈ ks, p.take (x + 1) = q) := by
          constructor
          · rintro ⟨x, hx, he⟩
            rcases List.mem_cons.1 hx with rfl | hx'
            · exact absurd he h2
            · exact ⟨x, hx', he⟩
          · rintro ⟨x, hx, he⟩
            exact ⟨x, List.mem_cons_of_mem _ hx, he⟩
        simp only [h1, h2, and_false, if_false, true_and, hmem]
    · simp [h1]

theorem lookup_mkdirSyncRec (fs : FS) (p q : FPath) :
    lookupFS (mkdirSyncRec fs p) q =
      if lookupFS fs q = none ∧ pathLe q p = true ∧ q ≠ [] then some FSObj.dir
      else lookupFS fs q := by
  rw [mkdirSyncRec, mkdirFold_lookup]
  have hiff : (∃ k ∈ List.range p.length, p.take (k + 1) = q) ↔
      (pathLe q p = true ∧ q ≠ []) := by
    constructor
    · rintro ⟨k, hk, he⟩
      rw [List.mem_range] at hk
      constructor
      · rw [← he]; exact pathLe_take
      · rw [← he]
        have : (p.take (k + 1)).length = min (k + 1) p.length := by simp
        intro hnil
        rw [hnil] at this
        simp at this
        omega
    · rintro ⟨hle, hne⟩
      refine ⟨q.length - 1, ?_, ?_⟩
      · rw [List.mem_range]
        have h1 := pathLe_length hle
        have h2 : q.length ≠ 0 := by simpa using hne
        omega
      · have h2 : q.length ≠ 0 := by simpa using hne
        have : q.length - 1 + 1 = q.length := by omega
        rw [this, ← take_eq_of_pathLe hle]
  rw [if_congr (and_congr Iff.rfl hiff) rfl rfl]

/-! Preservation of the subtree below a path disjoint from the write. -/

theorem subFS_setFS (fs : FS) {p : FPath} (o : FSObj) {s : FPath}
    (h : pathLe s p = false) : subFS (setFS fs p o) s = subFS fs s := by
  simp only [subFS]
  induction fs with
  | nil => simp [setFS, h]
  | cons e rest ih =>
    by_cases he : e.1 = p
    · simp only [setFS, if_pos he, List.filter_cons]
      have h2 : pathLe s e.1 = false := he ▸ h
      simp [h, h2]
    · simp only [setFS, if_neg he, List.filter_cons, ih]

theorem subFS_append_single (fs : FS) {p : FPath} (o : FSObj) {s : FPath}
    (h : pathLe s p = false) : subFS (fs ++ [(p, o)]) s = subFS fs s := by
  simp [subFS, List.filter_append, h]

theorem subFS_mkdirStep (p : FPath) (acc : FS) (k : Nat) {s : FPath}
    (h : pathLe s (p.take (k + 1)) = false) :
    subFS (mkdirStep p acc k) s = subFS acc s := by
  unfold mkdirStep
  by_cases hex : existsSync acc (p.take (k + 1)) = true
  · simp [hex]
  · simp only [Bool.not_eq_true] at hex
    simp only [hex, Bool.false_eq_true, if_false]
    exact subFS_append_single acc FSObj.dir h

theorem subFS_mkdirSyncRec (fs : FS) {p s : FPath}
    (h : pathLe s p = false) : subFS (mkdirSyncRec fs p) s = subFS fs s := by
  rw [mkdirSyncRec]
  refine List.foldlRecOn (motive := fun x => subFS x s = subFS fs s)
    (List.range p.length) (mkdirStep p) fs rfl ?_
  intro acc hacc k _
  have ht : pathLe s (p.take (k + 1)) = false := by
    cases hc : pathLe s (p.take (k + 1)) with
    | false => rfl
    | true =>
      have := pathLe_trans hc (pathLe_take (p := p) (k := k + 1))
      rw [h] at this
      exact absurd this (by simp)
  rw [subFS_mkdirStep p acc k ht, hacc]

/-! Facts about children, directory listing and key uniqueness. -/

theorem childName_eq_some {n : String} :
    ∀ {p q : FPath}, childName p q = some n ↔ q = p ++ [n] := by
  intro p
  induction p with
  | nil =>
    intro q
    match q with
    | [] => simp [childName]
    | [m] => simp [childName]
    | a :: b :: t => simp [childName]
  | cons a p ih =>
    intro q
    match q with
    | [] => simp [childName]
    | b :: q =>
      simp only [childName, List.cons_append]
      by_cases hab : a = b
      · subst hab
        rw [if_pos rfl]
        rw [ih]
        constructor
        · intro h; rw [h]
        · intro h; injection h
      · rw [if_neg hab]
        constructor
        · intro h; exact absurd h (by simp)
        · intro h
          injection h with h1 h2
          exact absurd h1.symm hab

theorem mem_readdir {fs : FS} {p : FPath} {n : String} :
    n ∈ readdirSync fs p ↔ lookupFS fs (p ++ [n]) ≠ none := by
  rw [readdirSync, List.mem_filterMap, lookupFS_ne_none]
  constructor
  · rintro ⟨e, he, hc⟩
    exact ⟨e, he, childName_eq_some.1 hc⟩
  · rintro ⟨e, he, hc⟩
    exact ⟨e, he, childName_eq_some.2 hc⟩

theorem readdir_eq_keys (fs : FS) (p : FPath) :
    readdirSync fs p = (fs.map Prod.fst).filterMap (childName p) := by
  rw [readdirSync, List.filterMap_map]
  rfl

theorem readdir_nodup {fs : FS} (h : (fs.map Prod.fst).Nodup) (p : FPath) :
    (readdirSync fs p).Nodup := by
  rw [readdir_eq_keys]
  refine List.Nodup.filterMap ?_ h
  intro a b n hn hn'
  rw [Option.mem_def] at hn hn'
  rw [childName_eq_some.1 hn, childName_eq_some.1 hn']

theorem keys_setFS (fs : FS) (p : FPath) (o : FSObj) :
    (setFS fs p o).map Prod.fst =
      if lookupFS fs p = none then fs.map Prod.fst ++ [p]
      else fs.map Prod.fst := by
  induction fs with
  | nil => simp [setFS, lookupFS]
  | cons e rest ih =>
    by_cases he : e.1 = p
    · simp [setFS, he, lookupFS]
    · simp only [setFS, if_neg he, List.map_cons, lookupFS, he,
        Bool.false_eq_true, if_false, ih]
      by_cases hl : lookupFS rest p = none
      · simp [hl]
      · simp [hl]

theorem nodup_setFS {fs : FS} (h : (fs.map Prod.fst).Nodup)
    (p : FPath) (o : FSObj) : ((setFS fs p o).map Prod.fst).Nodup := by
  rw [keys_setFS]
  by_cases hl : lookupFS fs p = none
  · rw [if_pos hl]
    rw [List.nodup_append]
    refine ⟨h, List.nodup_singleton p, ?_⟩
    intro x hx hx'
    rw [List.mem_singleton] at hx'
    subst hx'
    rw [lookupFS_eq_none] at hl
    obtain ⟨e, he, hk⟩ := List.mem_map.1 hx
    exact hl e he hk
  · rw [if_neg hl]; exact h

theorem nodup_mkdirStep {acc : FS} (h : (acc.map Prod.fst).Nodup)
    (p : FPath) (k : Nat) : ((mkdirStep p acc k).map Prod.fst).Nodup := by
  unfold mkdirStep
  by_cases hex : existsSync acc (p.take (k + 1)) = true
  · simpa [hex] using h
  · simp only [Bool.not_eq_true] at hex
    simp only [hex, Bool.false_eq_true, if_false, List.map_append,
      List.map_cons, List.map_nil]
    rw [List.nodup_append]
    refine ⟨h, List.nodup_singleton _, ?_⟩
    intro x hx hx'
    rw [List.mem_singleton] at hx'
    subst hx'
    have hnone : lookupFS acc (p.take (k + 1)) = none := by
      rw [existsSync] at hex
      exact Option.not_isSome_iff_eq_none.1 (by simp [hex])
    rw [lookupFS_eq_none] at hnone
    obtain ⟨e, he, hk⟩ := List.mem_map.1 hx
    exact hnone e he hk

theorem nodup_mkdirSyncRec {fs : FS} (h : (fs.map Prod.fst).Nodup)
    (p : FPath) : ((mkdirSyncRec fs p).map Prod.fst).Nodup := by
  rw [mkdirSyncRec]
  refine List.foldlRecOn (motive := fun x => (x.map Prod.fst).Nodup)
    (List.range p.length) (mkdirStep p) fs h ?_
  intro acc hacc k _
  exact nodup_mkdirStep hacc p k

theorem nodup_rmSyncRec {fs : FS} (h : (fs.map Prod.fst).Nodup)
    (p : FPath) : ((rmSyncRec fs p).map Prod.fst).Nodup := by
  rw [rmSyncRec]
  have hsub : (fs.filter fun e => !(pathLe p e.1)).map Prod.fst |>.Sublist
      (fs.map Prod.fst) := (List.filter_sublist fs).map Prod.fst
  exact h.sublist hsub

/-! Bridges between a subtree restriction and the derived observations. -/

theorem filterMap_filter_of {α β : Type} (f : α → Option β) (g : α → Bool)
    (l : List α) (h : ∀ a ∈ l, (f a).isSome = true → g a = true) :
    (l.filter g).filterMap f = l.filterMap f := by
  induction l with
  | nil => rfl
  | cons a l ih =>
    rw [List.filter_cons]
    by_cases hg : g a = true
    · rw [if_pos hg, List.filterMap_cons, List.filterMap_cons]
      cases hf : f a with
      | none => exact ih fun x hx => h x (List.mem_cons_of_mem a hx)
      | some b => rw [ih fun x hx => h x (List.mem_cons_of_mem a hx)]
    · rw [if_neg hg, List.filterMap_cons]
      cases hf : f a with
      | none => exact ih fun x hx => h x (List.mem_cons_of_mem a hx)
      | some b =>
        have : (f a).isSome = true := by rw [hf]; rfl
        exact absurd (h a (List.mem_cons_self a l) this) hg

theorem readdir_subFS {fs : FS} {s p : FPath} (h : pathLe s p = true) :
    readdirSync (subFS fs s) p = readdirSync fs p := by
  rw [subFS, readdirSync, readdirSync]
  refine filterMap_filter_of _ _ fs ?_
  intro e _ hsome
  cases hc : childName p e.1 with
  | none => rw [hc] at hsome; exact absurd hsome (by simp)
  | some n =>
    rw [childName_eq_some.1 hc]
    exact pathLe_append_right [n] h

theorem length_filter_mono {α : Type} {p q : α → Bool} (l : List α)
    (h : ∀ a ∈ l, p a = true → q a = true) :
    (l.filter p).length ≤ (l.filter q).length := by
  induction l with
  | nil => simp
  | cons a l ih =>
    have ih' := ih fun x hx => h x (List.mem_cons_of_mem a hx)
    rw [List.filter_cons, List.filter_cons]
    by_cases hp : p a = true
    · rw [if_pos hp, if_pos (h a (List.mem_cons_self a l) hp)]
      simpa using ih'
    · rw [if_neg hp]
      by_cases hq : q a = true
      · rw [if_pos hq]
        exact le_trans ih' (by simp)
      · rw [if_neg hq]
        exact ih'

theorem length_filter_lt {α : Type} {p q : α → Bool} {l : List α}
    (h : ∀ a ∈ l, p a = true → q a = true) {a0 : α} (h0 : a0 ∈ l)
    (hq : q a0 = true) (hp : p a0 = false) :
    (l.filter p).length < (l.filter q).length := by
  induction l with
  | nil => cases h0
  | cons x xs ih =>
    have hsub : ∀ a ∈ xs, p a = true → q a = true :=
      fun a ha => h a (List.mem_cons_of_mem x ha)
    rw [List.filter_cons, List.filter_cons]
    rcases List.mem_cons.1 h0 with rfl | hmem
    · rw [if_neg (by simp [hp]), if_pos hq]
      have := length_filter_mono xs hsub
      simpa using Nat.lt_succ_of_le this
    · by_cases hx : p x = true
      · rw [if_pos hx, if_pos (h x (List.mem_cons_self x xs) hx)]
        simpa using ih hsub hmem
      · rw [if_neg hx]
        by_cases hqx : q x = true
        · rw [if_pos hqx]
          exact lt_trans (ih hsub hmem) (by simp)
        · rw [if_neg hqx]
          exact ih hsub hmem

theorem countUnder_lt_of_child {fs : FS} {p : FPath} {n : String}
    (h : lookupFS fs (p ++ [n]) ≠ none) :
    countUnder fs (p ++ [n]) < countUnder fs p := by
  obtain ⟨e0, he0, hk⟩ := lookupFS_ne_none.1 h
  rw [countUnder, countUnder]
  refine length_filter_lt ?_ he0 ?_ ?_
  · intro e _ he
    rw [Bool.and_eq_true] at he
    rw [Bool.and_eq_true]
    refine ⟨pathLe_trans (pathLe_append p [n]) he.1, ?_⟩
    have := of_decide_eq_true he.2
    simp only [List.length_append, List.length_cons, List.length_nil] at this
    exact decide_eq_true (by omega)
  · rw [hk, Bool.and_eq_true]
    exact ⟨pathLe_append p [n], decide_eq_true (by simp)⟩
  · rw [hk]
    simp [pathLe_refl]

theorem countUnder_congr_subFS {fs fs' : FS} {s p : FPath}
    (hsub : subFS fs' s = subFS fs s) (h : pathLe s p = true) :
    countUnder fs' p = countUnder fs p := by
  have key : ∀ (g : FS),
      (g.filter fun e => pathLe p e.1 && decide (p.length < e.1.length)) =
      ((subFS g s).filter fun e => pathLe p e.1 && decide (p.length < e.1.length)) := by
    intro g
    rw [subFS, List.filter_filter]
    refine (List.filter_congr ?_).symm
    intro e _
    by_cases hc : (pathLe p e.1 && decide (p.length < e.1.length)) = true
    · rw [hc]
      rw [Bool.and_eq_true] at hc
      rw [pathLe_trans h hc.1]
      rfl
    · rw [Bool.not_eq_true] at hc
      rw [hc, Bool.false_and]
  rw [countUnder, countUnder, key fs', key fs, hsub]

theorem lookup_congr_subFS {fs fs' : FS} {s q : FPath}
    (hsub : subFS fs' s = subFS fs s) (h : pathLe s q = true) :
    lookupFS fs' q = lookupFS fs q := by
  have h1 := lookup_subFS fs' s q
  have h2 := lookup_subFS fs s q
  rw [if_pos h] at h1 h2
  rw [← h1, ← h2, hsub]

theorem readdir_congr_subFS {fs fs' : FS} {s p : FPath}
    (hsub : subFS fs' s = subFS fs s) (h : pathLe s p = true) :
    readdirSync fs' p = readdirSync fs p := by
  rw [← @readdir_subFS fs' s p h, ← @readdir_subFS fs s p h, hsub]

/-! Additional path facts used to steer writes away from the source tree. -/

theorem pathLe_ext_false {d q : FPath} (r : FPath) (h : pathLe d q = false) :
    pathLe (d ++ r) q = false := by
  cases hc : pathLe (d ++ r) q with
  | false => rfl
  | true =>
    have := pathLe_trans (pathLe_append d r) hc
    rw [h] at this
    exact absurd this (by simp)

theorem pathLe_snoc_false {q dest : FPath} {n : String}
    (h1 : pathLe q dest = false) (h2 : pathLe dest q = false) :
    pathLe q (dest ++ [n]) = false := by
  cases hc : pathLe q (dest ++ [n]) with
  | false => rfl
  | true =>
    rcases pathLe_snoc hc with hle | heq
    · rw [h1] at hle; exact absurd hle (by simp)
    · rw [heq] at h2
      rw [pathLe_append] at h2
      exact absurd h2 (by simp)

theorem pathLe_child_disjoint_left {src dest : FPath} {n : String}
    (h1 : pathLe src dest = false) (h2 : pathLe dest src = false) :
    pathLe (src ++ [n]) (dest ++ [n]) = false := by
  cases hc : pathLe (src ++ [n]) (dest ++ [n]) with
  | false => rfl
  | true =>
    have hsd : pathLe src (dest ++ [n]) = true :=
      pathLe_trans (pathLe_append src [n]) hc
    rcases pathLe_snoc hsd with hle | heq
    · rw [h1] at hle; exact absurd hle (by simp)
    · rw [heq, pathLe_append] at h2
      exact absurd h2 (by simp)

/-! Facts about the file copy primitive. -/

theorem lookup_copyFileSync_ne {fs : FS} {s d q : FPath} (h : d ≠ q) :
    lookupFS (copyFileSync fs s d) q = lookupFS fs q := by
  unfold copyFileSync
  cases hl : lookupFS fs s with
  | none => rw [lookup_setFS, if_neg h]
  | some o =>
    cases o with
    | file c => rw [lookup_setFS, if_neg h]
    | dir => rw [lookup_setFS, if_neg h]
    | symlink => rw [lookup_setFS, if_neg h]

theorem copyFileSync_of_file {fs : FS} {s : FPath} {c : Nat} (d : FPath)
    (h : lookupFS fs s = some (FSObj.file c)) :
    copyFileSync fs s d = setFS fs d (FSObj.file c) := by
  unfold copyFileSync
  rw [h]

theorem lookup_copyFileSync_symlink {fs : FS} {s d q : FPath}
    (h : lookupFS (copyFileSync fs s d) q = some FSObj.symlink) :
    lookupFS fs q = some FSObj.symlink := by
  unfold copyFileSync at h
  cases hl : lookupFS fs s with
  | none =>
    rw [hl, lookup_setFS] at h
    by_cases hq : d = q
    · rw [if_pos hq] at h; exact absurd h (by simp)
    · rw [if_neg hq] at h; exact h
  | some o =>
    rw [hl] at h
    cases o with
    | file c =>
      rw [lookup_setFS] at h
      by_cases hq : d = q
      · rw [if_pos hq] at h; exact absurd h (by simp)
      · rw [if_neg hq] at h; exact h
    | dir =>
      rw [lookup_setFS] at h
      by_cases hq : d = q
      · rw [if_pos hq] at h; exact absurd h (by simp)
      · rw [if_neg hq] at h; exact h
    | symlink =>
      rw [lookup_setFS] at h
      by_cases hq : d = q
      · rw [if_pos hq] at h; exact absurd h (by simp)
      · rw [if_neg hq] at h; exact h

theorem subFS_copyFileSync (fs : FS) {s0 : FPath} (s d : FPath)
    (h : pathLe s0 d = false) :
    subFS (copyFileSync fs s d) s0 = subFS fs s0 := by
  unfold copyFileSync
  cases hl : lookupFS fs s with
  | none => exact subFS_setFS fs _ h
  | some o =>
    cases o with
    | file c => exact subFS_setFS fs _ h
    | dir => exact subFS_setFS fs _ h
    | symlink => exact subFS_setFS fs _ h

theorem nodup_copyFileSync {fs : FS} (h : (fs.map Prod.fst).Nodup)
    (s d : FPath) : ((copyFileSync fs s d).map Prod.fst).Nodup := by
  unfold copyFileSync
  cases hl : lookupFS fs s with
  | none => exact nodup_setFS h d _
  | some o =>
    cases o with
    | file c => exact nodup_setFS h d _
    | dir => exact nodup_setFS h d _
    | symlink => exact nodup_setFS h d _

/-! Unfolding the tree copier one level at a time. -/

theorem copy_succ_exists {fuel : Nat} {src dest : FPath} {st : FS × List Event}
    (h : existsSync st.1 dest = true) :
    copyRecursiveSync (fuel + 1) src dest st =
      (readdirSync st.1 src).foldl (copyStep fuel src dest) st := by
  simp only [copyRecursiveSync, h, if_true]
  rfl

theorem copy_succ_missing {fuel : Nat} {src dest : FPath} {st : FS × List Event}
    (h : existsSync st.1 dest = false) :
    copyRecursiveSync (fuel + 1) src dest st =
      (readdirSync (mkdirSyncRec st.1 dest) src).foldl (copyStep fuel src dest)
        (mkdirSyncRec st.1 dest, st.2 ++ [Event.mkdir dest]) := by
  simp only [copyRecursiveSync, h, Bool.false_eq_true, if_false]
  rfl

/-! Preservation properties of the tree copier. -/

theorem copy_scope : ∀ (fuel : Nat) (src dest : FPath) (st : FS × List Event)
    (q : FPath), pathLe dest q = false →
    (lookupFS st.1 q ≠ none ∨ pathLe q dest = false) →
    lookupFS (copyRecursiveSync fuel src dest st).1 q = lookupFS st.1 q := by
  intro fuel
  induction fuel with
  | zero => intro src dest st q _ _; rfl
  | succ fuel ih =>
    intro src dest st q hq hpres
    have step : ∀ (x : FS × List Event), lookupFS x.1 q = lookupFS st.1 q →
        ∀ (file : String),
        lookupFS (copyStep fuel src dest x file).1 q = lookupFS st.1 q := by
      intro x hx file
      simp only [copyStep]
      by_cases hd : isDirectory x.1 (src ++ [file]) = true
      · rw [if_pos hd]
        have hside : lookupFS x.1 q ≠ none ∨ pathLe q (dest ++ [file]) = false := by
          rcases hpres with hp | hp
          · left; rw [hx]; exact hp
          · right; exact pathLe_snoc_false hp hq
        rw [ih (src ++ [file]) (dest ++ [file]) x q
          (pathLe_ext_false [file] hq) hside, hx]
      · rw [if_neg hd]
        show lookupFS (copyFileSync x.1 (src ++ [file]) (dest ++ [file])) q =
          lookupFS st.1 q
        have hne : dest ++ [file] ≠ q := by
          intro hcontra
          rw [← hcontra, pathLe_append] at hq
          exact absurd hq (by simp)
        rw [lookup_copyFileSync_ne hne, hx]
    by_cases hex : existsSync st.1 dest = true
    · rw [copy_succ_exists hex]
      exact List.foldlRecOn (motive := fun x => lookupFS x.1 q = lookupFS st.1 q)
        _ _ _ rfl (fun x hx file _ => step x hx file)
    · rw [copy_succ_missing (Bool.eq_false_iff.mpr hex)]
      have hbase : lookupFS (mkdirSyncRec st.1 dest) q = lookupFS st.1 q := by
        rw [lookup_mkdirSyncRec]
        by_cases hcond : lookupFS st.1 q = none ∧ pathLe q dest = true ∧ q ≠ []
        · exfalso
          rcases hpres with hp | hp
          · exact hp hcond.1
          · have := hcond.2.1
            rw [hp] at this
            exact absurd this (by simp)
        · rw [if_neg hcond]
      exact List.foldlRecOn (motive := fun x => lookupFS x.1 q = lookupFS st.1 q)
        _ _ (mkdirSyncRec st.1 dest, st.2 ++ [Event.mkdir dest]) hbase
        (fun x hx file _ => step x hx file)

theorem lookup_copyFileSync_self (fs : FS) (s d : FPath) :
    ∃ c, lookupFS (copyFileSync fs s d) d = some (FSObj.file c) := by
  unfold copyFileSync
  cases hl : lookupFS fs s with
  | none => exact ⟨0, by rw [lookup_setFS, if_pos rfl]⟩
  | some o =>
    cases o with
    | file c => exact ⟨c, by rw [lookup_setFS, if_pos rfl]⟩
    | dir => exact ⟨0, by rw [lookup_setFS, if_pos rfl]⟩
    | symlink => exact ⟨0, by rw [lookup_setFS, if_pos rfl]⟩

theorem copy_presence_mono : ∀ (fuel : Nat) (src dest : FPath)
    (st : FS × List Event) (q : FPath), lookupFS st.1 q ≠ none →
    lookupFS (copyRecursiveSync fuel src dest st).1 q ≠ none := by
  intro fuel
  induction fuel with
  | zero => intro src dest st q h; exact h
  | succ fuel ih =>
    intro src dest st q h
    have step : ∀ (x : FS × List Event), lookupFS x.1 q ≠ none →
        ∀ (file : String),
        lookupFS (copyStep fuel src dest x file).1 q ≠ none := by
      intro x hx file
      simp only [copyStep]
      by_cases hd : isDirectory x.1 (src ++ [file]) = true
      · rw [if_pos hd]
        exact ih (src ++ [file]) (dest ++ [file]) x q hx
      · rw [if_neg hd]
        show lookupFS (copyFileSync x.1 (src ++ [file]) (dest ++ [file])) q ≠ none
        by_cases hq : dest ++ [file] = q
        · obtain ⟨c, hc⟩ := lookup_copyFileSync_self x.1 (src ++ [file]) (dest ++ [file])
          rw [← hq, hc]
          simp
        · rw [lookup_copyFileSync_ne hq]
          exact hx
    by_cases hex : existsSync st.1 dest = true
    · rw [copy_succ_exists hex]
      exact List.foldlRecOn (motive := fun x => lookupFS x.1 q ≠ none)
        _ _ _ h (fun x hx file _ => step x hx file)
    · rw [copy_succ_missing (Bool.eq_false_iff.mpr hex)]
      have hbase : lookupFS (mkdirSyncRec st.1 dest) q ≠ none := by
        rw [lookup_mkdirSyncRec]
        by_cases hcond : lookupFS st.1 q = none ∧ pathLe q dest = true ∧ q ≠ []
        · rw [if_pos hcond]; simp
        · rw [if_neg hcond]; exact h
      exact List.foldlRecOn (motive := fun x => lookupFS x.1 q ≠ none)
        _ _ (mkdirSyncRec st.1 dest, st.2 ++ [Event.mkdir dest]) hbase
        (fun x hx file _ => step x hx file)

theorem copy_dir_preserved : ∀ (fuel : Nat) (src dest : FPath)
    (st : FS × List Event) (q : FPath),
    lookupFS st.1 q = some FSObj.dir → pathLe q dest = true →
    lookupFS (copyRecursiveSync fuel src dest st).1 q = some FSObj.dir := by
  intro fuel
  induction fuel with
  | zero => intro src dest st q h _; exact h
  | succ fuel ih =>
    intro src dest st q h hqd
    have step : ∀ (x : FS × List Event), lookupFS x.1 q = some FSObj.dir →
        ∀ (file : String),
        lookupFS (copyStep fuel src dest x file).1 q = some FSObj.dir := by
      intro x hx file
      simp only [copyStep]
      by_cases hd : isDirectory x.1 (src ++ [file]) = true
      · rw [if_pos hd]
        exact ih (src ++ [file]) (dest ++ [file]) x q hx
          (pathLe_append_right [file] hqd)
      · rw [if_neg hd]
        show lookupFS (copyFileSync x.1 (src ++ [file]) (dest ++ [file])) q =
          some FSObj.dir
        have hne : dest ++ [file] ≠ q := by
          intro hcontra
          have hlen := pathLe_length hqd
          rw [← hcontra] at hlen
          simp at hlen
        rw [lookup_copyFileSync_ne hne, hx]
    by_cases hex : existsSync st.1 dest = true
    · rw [copy_succ_exists hex]
      exact List.foldlRecOn (motive := fun x => lookupFS x.1 q = some FSObj.dir)
        _ _ _ h (fun x hx file _ => step x hx file)
    · rw [copy_succ_missing (Bool.eq_false_iff.mpr hex)]
      have hbase : lookupFS (mkdirSyncRec st.1 dest) q = some FSObj.dir := by
        rw [lookup_mkdirSyncRec]
        by_cases hcond : lookupFS st.1 q = none ∧ pathLe q dest = true ∧ q ≠ []
        · rw [if_pos hcond]
        · rw [if_neg hcond]; exact h
      exact List.foldlRecOn (motive := fun x => lookupFS x.1 q = some FSObj.dir)
        _ _ (mkdirSyncRec st.1 dest, st.2 ++ [Event.mkdir dest]) hbase
        (fun x hx file _ => step x hx file)

theorem copy_no_new_symlink : ∀ (fuel : Nat) (src dest : FPath)
    (st : FS × List Event) (q : FPath),
    lookupFS (copyRecursiveSync fuel src dest st).1 q = some FSObj.symlink →
    lookupFS st.1 q = some FSObj.symlink := by
  intro fuel
  induction fuel with
  | zero => intro src dest st q h; exact h
  | succ fuel ih =>
    intro src dest st q h
    have step : ∀ (x : FS × List Event),
        (lookupFS x.1 q = some FSObj.symlink → lookupFS st.1 q = some FSObj.symlink) →
        ∀ (file : String),
        lookupFS (copyStep fuel src dest x file).1 q = some FSObj.symlink →
        lookupFS st.1 q = some FSObj.symlink := by
      intro x hx file hres
      apply hx
      revert hres
      simp only [copyStep]
      by_cases hd : isDirectory x.1 (src ++ [file]) = true
      · rw [if_pos hd]
        exact ih (src ++ [file]) (dest ++ [file]) x q
      · rw [if_neg hd]
        intro hres
        exact lookup_copyFileSync_symlink hres
    have hmk : ∀ (g : FS), lookupFS (mkdirSyncRec g dest) q = some FSObj.symlink →
        lookupFS g q = some FSObj.symlink := by
      intro g hg
      rw [lookup_mkdirSyncRec] at hg
      by_cases hcond : lookupFS g q = none ∧ pathLe q dest = true ∧ q ≠ []
      · rw [if_pos hcond] at hg
        exact absurd hg (by simp)
      · rw [if_neg hcond] at hg
        exact hg
    by_cases hex : existsSync st.1 dest = true
    · rw [copy_succ_exists hex] at h
      exact List.foldlRecOn
        (motive := fun x => lookupFS x.1 q = some FSObj.symlink →
          lookupFS st.1 q = some FSObj.symlink)
        _ _ _ (fun hh => hh) (fun x hx file _ => step x hx file) h
    · rw [copy_succ_missing (Bool.eq_false_iff.mpr hex)] at h
      exact List.foldlRecOn
        (motive := fun x => lookupFS x.1 q = some FSObj.symlink →
          lookupFS st.1 q = some FSObj.symlink)
        _ _ (mkdirSyncRec st.1 dest, st.2 ++ [Event.mkdir dest]) (hmk st.1)
        (fun x hx file _ => step x hx file) h

theorem copy_subFS : ∀ (fuel : Nat) (src dest : FPath) (st : FS × List Event)
    (s : FPath), pathLe s dest = false → pathLe dest s = false →
    subFS (copyRecursiveSync fuel src dest st).1 s = subFS st.1 s := by
  intro fuel
  induction fuel with
  | zero => intro src dest st s _ _; rfl
  | succ fuel ih =>
    intro src dest st s h1 h2
    have step : ∀ (x : FS × List Event), subFS x.1 s = subFS st.1 s →
        ∀ (file : String),
        subFS (copyStep fuel src dest x file).1 s = subFS st.1 s := by
      intro x hx file
      simp only [copyStep]
      by_cases hd : isDirectory x.1 (src ++ [file]) = true
      · rw [if_pos hd]
        rw [ih (src ++ [file]) (dest ++ [file]) x s
          (pathLe_snoc_false h1 h2) (pathLe_ext_false [file] h2), hx]
      · rw [if_neg hd]
        show subFS (copyFileSync x.1 (src ++ [file]) (dest ++ [file])) s = subFS st.1 s
        rw [subFS_copyFileSync x.1 _ _ (pathLe_snoc_false h1 h2), hx]
    by_cases hex : existsSync st.1 dest = true
    · rw [copy_succ_exists hex]
      exact List.foldlRecOn (motive := fun x => subFS x.1 s = subFS st.1 s)
        _ _ _ rfl (fun x hx file _ => step x hx file)
    · rw [copy_succ_missing (Bool.eq_false_iff.mpr hex)]
      have hbase : subFS (mkdirSyncRec st.1 dest) s = subFS st.1 s :=
        subFS_mkdirSyncRec st.1 h1
      exact List.foldlRecOn (motive := fun x => subFS x.1 s = subFS st.1 s)
        _ _ (mkdirSyncRec st.1 dest, st.2 ++ [Event.mkdir dest]) hbase
        (fun x hx file _ => step x hx file)

theorem copy_nodup : ∀ (fuel : Nat) (src dest : FPath) (st : FS × List Event),
    (st.1.map Prod.fst).Nodup →
    ((copyRecursiveSync fuel src dest st).1.map Prod.fst).Nodup := by
  intro fuel
  induction fuel with
  | zero => intro src dest st h; exact h
  | succ fuel ih =>
    intro src dest st h
    have step : ∀ (x : FS × List Event), (x.1.map Prod.fst).Nodup →
        ∀ (file : String),
        ((copyStep fuel src dest x file).1.map Prod.fst).Nodup := by
      intro x hx file
      simp only [copyStep]
      by_cases hd : isDirectory x.1 (src ++ [file]) = true
      · rw [if_pos hd]
        exact ih (src ++ [file]) (dest ++ [file]) x hx
      · rw [if_neg hd]
        exact nodup_copyFileSync hx _ _
    by_cases hex : existsSync st.1 dest = true
    · rw [copy_succ_exists hex]
      exact List.foldlRecOn (motive := fun x => (x.1.map Prod.fst).Nodup)
        _ _ _ h (fun x hx file _ => step x hx file)
    · rw [copy_succ_missing (Bool.eq_false_iff.mpr hex)]
      exact List.foldlRecOn (motive := fun x => (x.1.map Prod.fst).Nodup)
        _ _ (mkdirSyncRec st.1 dest, st.2 ++ [Event.mkdir dest])
        (nodup_mkdirSyncRec h dest) (fun x hx file _ => step x hx file)

theorem copy_dest_dir {fuel : Nat} {src dest : FPath} {st : FS × List Event}
    (hmiss : existsSync st.1 dest = false) (hne : dest ≠ []) :
    lookupFS (copyRecursiveSync (fuel + 1) src dest st).1 dest = some FSObj.dir := by
  rw [copy_succ_missing hmiss]
  have hnone : lookupFS st.1 dest = none := by
    rw [existsSync] at hmiss
    exact Option.not_isSome_iff_eq_none.1 (by simp [hmiss])
  have hbase : lookupFS (mkdirSyncRec st.1 dest) dest = some FSObj.dir := by
    rw [lookup_mkdirSyncRec, if_pos ⟨hnone, pathLe_refl dest, hne⟩]
  refine List.foldlRecOn (motive := fun x => lookupFS x.1 dest = some FSObj.dir)
    _ _ (mkdirSyncRec st.1 dest, st.2 ++ [Event.mkdir dest]) hbase ?_
  intro x hx file _
  simp only [copyStep]
  by_cases hd : isDirectory x.1 (src ++ [file]) = true
  · rw [if_pos hd]
    exact copy_dir_preserved fuel (src ++ [file]) (dest ++ [file]) x dest hx
      (pathLe_append dest [file])
  · rw [if_neg hd]
    show lookupFS (copyFileSync x.1 (src ++ [file]) (dest ++ [file])) dest =
      some FSObj.dir
    have hne2 : dest ++ [file] ≠ dest := by
      intro hcon
      have := congrArg List.length hcon
      simp at this
    rw [lookup_copyFileSync_ne hne2, hx]

/-! The trace grows by appending: every operation only adds events. -/

theorem foldl_trace_append {β : Type} (f : FS × List Event → β → FS × List Event)
    (hf : ∀ fs tr b, f (fs, tr) b = ((f (fs, []) b).1, tr ++ (f (fs, []) b).2)) :
    ∀ (l : List β) (fs : FS) (tr : List Event),
      l.foldl f (fs, tr) = ((l.foldl f (fs, [])).1, tr ++ (l.foldl f (fs, [])).2) := by
  intro l
  induction l with
  | nil => intro fs tr; simp
  | cons b l ih =>
    intro fs tr
    simp only [List.foldl_cons]
    rw [hf fs tr b]
    have h1 := ih (f (fs, []) b).1 (tr ++ (f (fs, []) b).2)
    have h2 := ih (f (fs, []) b).1 (f (fs, []) b).2
    rw [h1]
    conv_rhs => rw [show f (fs, []) b = ((f (fs, []) b).1, (f (fs, []) b).2) from rfl]
    rw [h2]
    simp [List.append_assoc]

theorem copy_trace : ∀ (fuel : Nat) (src dest : FPath) (fs : FS)
    (tr : List Event),
    copyRecursiveSync fuel src dest (fs, tr) =
      ((copyRecursiveSync fuel src dest (fs, [])).1,
        tr ++ (copyRecursiveSync fuel src dest (fs, [])).2) := by
  intro fuel
  induction fuel with
  | zero => intro src dest fs tr; simp [copyRecursiveSync]
  | succ fuel ih =>
    intro src dest fs tr
    have hstep : ∀ (g : FS) (t : List Event) (b : String),
        copyStep fuel src dest (g, t) b =
          ((copyStep fuel src dest (g, []) b).1,
            t ++ (copyStep fuel src dest (g, []) b).2) := by
      intro g t b
      simp only [copyStep]
      by_cases hd : isDirectory g (src ++ [b]) = true
      · rw [if_pos hd, if_pos hd]
        exact ih (src ++ [b]) (dest ++ [b]) g t
      · rw [if_neg hd, if_neg hd]
        simp
    by_cases hex : existsSync fs dest = true
    · rw [@copy_succ_exists fuel src dest (fs, tr) hex,
        @copy_succ_exists fuel src dest (fs, []) hex]
      exact foldl_trace_append _ hstep _ fs tr
    · rw [@copy_succ_missing fuel src dest (fs, tr) (Bool.eq_false_iff.mpr hex),
        @copy_succ_missing fuel src dest (fs, []) (Bool.eq_false_iff.mpr hex)]
      rw [foldl_trace_append _ hstep _ (mkdirSyncRec fs dest) (tr ++ [Event.mkdir dest]),
        foldl_trace_append _ hstep _ (mkdirSyncRec fs dest) ([] ++ [Event.mkdir dest])]
      simp [List.append_assoc]

theorem copy_filter_trace (P : Event → Bool) (hm : ∀ p, P (Event.mkdir p) = false)
    (hc : ∀ a b, P (Event.copyFile a b) = false) :
    ∀ (fuel : Nat) (src dest : FPath) (st : FS × List Event),
    ((copyRecursiveSync fuel src dest st).2).filter P = st.2.filter P := by
  intro fuel
  induction fuel with
  | zero => intro src dest st; rfl
  | succ fuel ih =>
    intro src dest st
    have step : ∀ (x : FS × List Event), x.2.filter P = st.2.filter P →
        ∀ (file : String),
        (copyStep fuel src dest x file).2.filter P = st.2.filter P := by
      intro x hx file
      simp only [copyStep]
      by_cases hd : isDirectory x.1 (src ++ [file]) = true
      · rw [if_pos hd]
        rw [ih (src ++ [file]) (dest ++ [file]) x, hx]
      · rw [if_neg hd]
        show ((copyFileSync x.1 (src ++ [file]) (dest ++ [file]),
          x.2 ++ [Event.copyFile (src ++ [file]) (dest ++ [file])])).2.filter P =
          st.2.filter P
        rw [List.filter_append, hx]
        simp [hc]
    by_cases hex : existsSync st.1 dest = true
    · rw [copy_succ_exists hex]
      exact List.foldlRecOn (motive := fun x => x.2.filter P = st.2.filter P)
        _ _ _ rfl (fun x hx file _ => step x hx file)
    · rw [copy_succ_missing (Bool.eq_false_iff.mpr hex)]
      have hbase : (st.2 ++ [Event.mkdir dest]).filter P = st.2.filter P := by
        rw [List.filter_append]
        simp [hm]
      exact List.foldlRecOn (motive := fun x => x.2.filter P = st.2.filter P)
        _ _ (mkdirSyncRec st.1 dest, st.2 ++ [Event.mkdir dest]) hbase
        (fun x hx file _ => step x hx file)

/-! Helpers for the ordering of the copy trace and the parent chain. -/

theorem orderedTrace_nil : OrderedTrace [] := by
  intro i s d hi
  simp at hi

theorem orderedTrace_append {t1 t2 : List Event} (h1 : OrderedTrace t1)
    (h2 : OrderedTrace t2) : OrderedTrace (t1 ++ t2) := by
  intro i s d hi
  by_cases hlt : i < t1.length
  · rw [List.get?_append hlt] at hi
    obtain ⟨j, hj, hg⟩ := h1 i s d hi
    exact ⟨j, hj, by rw [List.get?_append (lt_trans hj hlt)]; exact hg⟩
  · push_neg at hlt
    rw [List.get?_append_right hlt] at hi
    obtain ⟨j, hj, hg⟩ := h2 _ s d hi
    refine ⟨t1.length + j, by omega, ?_⟩
    rw [List.get?_append_right (by omega)]
    simpa using hg

theorem orderedTrace_snoc_mkdir {t : List Event} (h : OrderedTrace t)
    (p : FPath) : OrderedTrace (t ++ [Event.mkdir p]) := by
  intro i s d hi
  by_cases hlt : i < t.length
  · rw [List.get?_append hlt] at hi
    obtain ⟨j, hj, hg⟩ := h i s d hi
    exact ⟨j, hj, by rw [List.get?_append (lt_trans hj hlt)]; exact hg⟩
  · push_neg at hlt
    rw [List.get?_append_right hlt] at hi
    cases hk : i - t.length with
    | zero => rw [hk] at hi; simp at hi
    | succ k => rw [hk] at hi; simp at hi

theorem orderedTrace_snoc_copyFile {t : List Event} {s0 d0 : FPath}
    (h : OrderedTrace t)
    (hj : ∃ j, t.get? j = some (Event.mkdir d0.dropLast)) :
    OrderedTrace (t ++ [Event.copyFile s0 d0]) := by
  intro i s d hi
  by_cases hlt : i < t.length
  · rw [List.get?_append hlt] at hi
    obtain ⟨j', hj', hg⟩ := h i s d hi
    exact ⟨j', hj', by rw [List.get?_append (lt_trans hj' hlt)]; exact hg⟩
  · push_neg at hlt
    rw [List.get?_append_right hlt] at hi
    cases hk : i - t.length with
    | zero =>
      rw [hk] at hi
      simp only [List.get?] at hi
      injection hi with hi2
      obtain ⟨j, hg⟩ := hj
      have hjlen : j < t.length := by
        by_contra hge
        push_neg at hge
        rw [List.get?_eq_none.2 hge] at hg
        cases hg
      refine ⟨j, by omega, ?_⟩
      rw [List.get?_append hjlen, hg]
      have hd : d = d0 := by
        cases hi2
        rfl
      rw [hd]
    | succ k => rw [hk] at hi; simp at hi

theorem orderedTrace_single_mkdir (p : FPath) :
    OrderedTrace [Event.mkdir p] := by
  have := orderedTrace_snoc_mkdir orderedTrace_nil p
  simpa using this

theorem mkdir_witness_append {t1 t2 : List Event} {p : FPath}
    (h : ∃ j, t1.get? j = some (Event.mkdir p)) :
    ∃ j, (t1 ++ t2).get? j = some (Event.mkdir p) := by
  obtain ⟨j, hg⟩ := h
  have hjlen : j < t1.length := by
    by_contra hge
    push_neg at hge
    rw [List.get?_eq_none.2 hge] at hg
    cases hg
  exact ⟨j, by rw [List.get?_append hjlen]; exact hg⟩

theorem chainFS_iff {fs : FS} {base rel : FPath} :
    chainFS fs base rel = true ↔
      ∀ k, 0 < k → k < rel.length →
        lookupFS fs (base ++ rel.take k) = some FSObj.dir := by
  rw [chainFS, List.all_eq_true]
  constructor
  · intro h k hk0 hklen
    have := h k (List.mem_range.2 hklen)
    rw [Bool.or_eq_true] at this
    rcases this with h0 | hl
    · exact absurd (of_decide_eq_true h0) (by omega)
    · exact of_decide_eq_true hl
  · intro h k hk
    rw [List.mem_range] at hk
    rw [Bool.or_eq_true]
    by_cases h0 : k = 0
    · exact Or.inl (decide_eq_true h0)
    · exact Or.inr (decide_eq_true (h k (by omega) hk))

theorem pathLe_eq_of_length {a b : FPath} (h : pathLe a b = true)
    (hl : a.length = b.length) : a = b := by
  have := take_eq_of_pathLe h
  rw [hl, List.take_length] at this
  exact this

theorem pathLe_append_left_cancel (d a b : FPath) :
    pathLe (d ++ a) (d ++ b) = pathLe a b := by
  induction d with
  | nil => rfl
  | cons x d ih => simp [pathLe, ih]

theorem pathLe_child_head {dest : FPath} {m n : String} {rel : FPath}
    (h : pathLe (dest ++ [m]) (dest ++ n :: rel) = true) : m = n := by
  rw [pathLe_append_left_cancel] at h
  simp only [pathLe] at h
  by_cases hmn : m = n
  · exact hmn
  · rw [if_neg hmn] at h
    exact absurd h (by simp)

theorem pathLe_between {dest q : FPath} {n : String}
    (h1 : pathLe dest q = true) (h2 : pathLe q (dest ++ [n]) = true) :
    q = dest ∨ q = dest ++ [n] := by
  have l1 := pathLe_length h1
  have l2 := pathLe_length h2
  simp only [List.length_append, List.length_cons, List.length_nil] at l2
  by_cases hq : q.length = dest.length
  · left
    exact (pathLe_eq_of_length h1 hq.symm).symm
  · right
    exact pathLe_eq_of_length h2 (by simp; omega)

theorem dropLast_snoc (l : List String) (a : String) :
    (l ++ [a]).dropLast = l := by
  simp

/-- Core correctness of the tree copier on a fresh destination disjoint from
the source: the source subtree reachable from src is reproduced below dest,
the trace opens with the creation of dest, and every file copy is preceded
by the creation of its parent directory. -/
theorem copy_mirror :
    ∀ (fuel : Nat) (src dest : FPath) (fs : FS),
    (fs.map Prod.fst).Nodup →
    countUnder fs src < fuel →
    pathLe src dest = false → pathLe dest src = false →
    (∀ q, pathLe dest q = true → lookupFS fs q = none) →
    (∀ q, pathLe src q = true → lookupFS fs q ≠ some FSObj.symlink) →
    dest ≠ [] →
    (∀ rel, rel ≠ [] → chainFS fs src rel = true →
      lookupFS (copyRecursiveSync fuel src dest (fs, [])).1 (dest ++ rel) =
        lookupFS fs (src ++ rel)) ∧
    (∃ seg, (copyRecursiveSync fuel src dest (fs, [])).2 =
      Event.mkdir dest :: seg) ∧
    OrderedTrace (copyRecursiveSync fuel src dest (fs, [])).2 := by
  intro fuel
  induction fuel with
  | zero =>
    intro src dest fs _ hfuel
    exact absurd hfuel (by omega)
  | succ fuel ih =>
    intro src dest fs hnd hfuel h1 h2 hfresh hnosym hdne
    have hmiss : existsSync ((fs : FS), ([] : List Event)).1 dest = false := by
      show existsSync fs dest = false
      rw [existsSync, hfresh dest (pathLe_refl dest)]
      rfl
    rw [copy_succ_missing hmiss]
    have hsubM : subFS (mkdirSyncRec fs dest) src = subFS fs src :=
      subFS_mkdirSyncRec fs h1
    have hfold :
        ∀ (ns : List String), ns.Nodup →
        (∀ n ∈ ns, lookupFS fs (src ++ [n]) ≠ none) →
        ∀ (x : FS × List Event),
        subFS x.1 src = subFS fs src →
        (x.1.map Prod.fst).Nodup →
        (∀ n ∈ ns, ∀ q, pathLe (dest ++ [n]) q = true → lookupFS x.1 q = none) →
        lookupFS x.1 dest = some FSObj.dir →
        OrderedTrace x.2 →
        (∃ j, x.2.get? j = some (Event.mkdir dest)) →
        (∀ n ∈ ns, ∀ rel, chainFS fs src (n :: rel) = true →
          lookupFS ((ns.foldl (copyStep fuel src dest) x).1) (dest ++ n :: rel) =
            lookupFS fs (src ++ n :: rel)) ∧
        (∀ q, pathLe dest q = true → q ≠ dest →
          (∀ n ∈ ns, pathLe (dest ++ [n]) q = false) →
          lookupFS ((ns.foldl (copyStep fuel src dest) x).1) q = lookupFS x.1 q) ∧
        subFS ((ns.foldl (copyStep fuel src dest) x).1) src = subFS fs src ∧
        ((ns.foldl (copyStep fuel src dest) x).1.map Prod.fst).Nodup ∧
        lookupFS ((ns.foldl (copyStep fuel src dest) x).1) dest = some FSObj.dir ∧
        (∃ seg, (ns.foldl (copyStep fuel src dest) x).2 = x.2 ++ seg) ∧
        OrderedTrace (ns.foldl (copyStep fuel src dest) x).2 := by
      intro ns
      induction ns with
      | nil =>
        intro _ _ x hx1 hx2 _ hx4 hord _
        exact ⟨by simp, fun q _ _ _ => rfl, hx1, hx2, hx4, ⟨[], by simp⟩, hord⟩
      | cons n ns ihn =>
        intro hnodup hns x hx1 hx2 hx3 hx4 hord hmk
        obtain ⟨xf, xt⟩ := x
        dsimp only at hx1 hx2 hx3 hx4 hord hmk
        obtain ⟨hn_notin, hns_nodup⟩ := List.nodup_cons.1 hnodup
        have hns' : ∀ m ∈ ns, lookupFS fs (src ++ [m]) ≠ none :=
          fun m hm => hns m (by simp [hm])
        have hxval : lookupFS xf (src ++ [n]) = lookupFS fs (src ++ [n]) :=
          lookup_congr_subFS hx1 (pathLe_append src [n])
        have hchild_ne_dest : dest ++ [n] ≠ dest := by
          intro hcon
          have := congrArg List.length hcon
          simp at this
        have hchild_not_in_ns : ∀ m ∈ ns,
            pathLe (dest ++ [m]) (dest ++ [n]) = false := by
          intro m hm
          cases hc : pathLe (dest ++ [m]) (dest ++ [n]) with
          | false => rfl
          | true =>
            have heq := pathLe_eq_of_length hc (by simp)
            have hmn := List.append_cancel_left heq
            injection hmn with hmn2
            exact absurd (hmn2 ▸ hm) hn_notin
        simp only [List.foldl_cons]
        cases hobj : lookupFS fs (src ++ [n]) with
        | none => exact absurd hobj (hns n (by simp))
        | some o =>
          have hno : o ≠ FSObj.symlink := by
            intro hcon
            exact hnosym (src ++ [n]) (pathLe_append src [n])
              (by rw [hobj, hcon])
          cases o with
          | symlink => exact absurd rfl hno
          | dir =>
            have hdir : isDirectory xf (src ++ [n]) = true := by
              rw [isDirectory, hxval, hobj]
              simp
            have hx'pair : copyStep fuel src dest (xf, xt) n =
                ((copyRecursiveSync fuel (src ++ [n]) (dest ++ [n]) (xf, [])).1,
                  xt ++ (copyRecursiveSync fuel (src ++ [n]) (dest ++ [n]) (xf, [])).2) := by
              simp only [copyStep]
              rw [if_pos hdir]
              exact copy_trace fuel (src ++ [n]) (dest ++ [n]) xf xt
            have hcount : countUnder xf (src ++ [n]) < fuel := by
              have e1 : countUnder xf (src ++ [n]) = countUnder fs (src ++ [n]) :=
                countUnder_congr_subFS hx1 (pathLe_append src [n])
              have e2 : countUnder fs (src ++ [n]) < countUnder fs src :=
                countUnder_lt_of_child (by rw [hobj]; simp)
              omega
            have hmain := ih (src ++ [n]) (dest ++ [n]) xf hx2 hcount
              (pathLe_child_disjoint_left h1 h2)
              (pathLe_child_disjoint_left h2 h1)
              (hx3 n (by simp))
              (fun q hq => by
                rw [lookup_congr_subFS hx1
                  (pathLe_trans (pathLe_append src [n]) hq)]
                exact hnosym q (pathLe_trans (pathLe_append src [n]) hq))
              (by simp)
            obtain ⟨hmir', htrace', hord'⟩ := hmain
            have hfuelpos : ∃ f2, fuel = f2 + 1 := ⟨fuel - 1, by omega⟩
            obtain ⟨f2, hf2⟩ := hfuelpos
            have hmiss' : existsSync ((xf : FS), ([] : List Event)).1 (dest ++ [n]) = false := by
              show existsSync xf (dest ++ [n]) = false
              rw [existsSync, hx3 n (by simp) (dest ++ [n]) (pathLe_refl _)]
              rfl
            have hdirY : lookupFS
                (copyRecursiveSync fuel (src ++ [n]) (dest ++ [n]) (xf, [])).1
                (dest ++ [n]) = some FSObj.dir := by
              rw [hf2]
              exact copy_dest_dir hmiss' (by simp)
            have hx1' : subFS
                (copyRecursiveSync fuel (src ++ [n]) (dest ++ [n]) (xf, [])).1
                src = subFS fs src := by
              rw [copy_subFS fuel (src ++ [n]) (dest ++ [n]) (xf, []) src
                (pathLe_snoc_false h1 h2) (pathLe_ext_false [n] h2)]
              exact hx1
            have hx2' :
                ((copyRecursiveSync fuel (src ++ [n]) (dest ++ [n]) (xf, [])).1.map
                  Prod.fst).Nodup :=
              copy_nodup fuel (src ++ [n]) (dest ++ [n]) (xf, []) hx2
            have hx3' : ∀ m ∈ ns, ∀ q, pathLe (dest ++ [m]) q = true →
                lookupFS
                  (copyRecursiveSync fuel (src ++ [n]) (dest ++ [n]) (xf, [])).1
                  q = none := by
              intro m hm q hq
              have hmn : m ≠ n := fun hcon => hn_notin (hcon ▸ hm)
              have hA : pathLe (dest ++ [n]) q = false := by
                cases hc : pathLe (dest ++ [n]) q with
                | false => rfl
                | true =>
                  rcases pathLe_comparable hc hq with hcc | hcc
                  · have heq := pathLe_eq_of_length hcc (by simp)
                    have := List.append_cancel_left heq
                    injection this with h3
                    exact absurd h3.symm hmn
                  · have heq := pathLe_eq_of_length hcc (by simp)
                    have := List.append_cancel_left heq
                    injection this with h3
                    exact absurd h3 hmn
              have hB : pathLe q (dest ++ [n]) = false := by
                cases hc : pathLe q (dest ++ [n]) with
                | false => rfl
                | true =>
                  have hdq : pathLe dest q = true :=
                    pathLe_trans (pathLe_append dest [m]) hq
                  rcases pathLe_between hdq hc with hqd | hqd
                  · have l1 := pathLe_length hq
                    rw [hqd] at l1
                    simp at l1
                  · rw [hqd, pathLe_refl] at hA
                    exact absurd hA (by simp)
              rw [copy_scope fuel (src ++ [n]) (dest ++ [n]) (xf, []) q hA
                (Or.inr hB)]
              exact hx3 m (by simp [hm]) q hq
            have hx4' : lookupFS
                (copyRecursiveSync fuel (src ++ [n]) (dest ++ [n]) (xf, [])).1
                dest = some FSObj.dir :=
              copy_dir_preserved fuel (src ++ [n]) (dest ++ [n]) (xf, []) dest
                hx4 (pathLe_append dest [n])
            have hord'' : OrderedTrace (xt ++
                (copyRecursiveSync fuel (src ++ [n]) (dest ++ [n]) (xf, [])).2) :=
              orderedTrace_append hord hord'
            have hmk'' : ∃ j, (xt ++
                (copyRecursiveSync fuel (src ++ [n]) (dest ++ [n]) (xf, [])).2).get? j =
                some (Event.mkdir dest) := mkdir_witness_append hmk
            have hrec := ihn hns_nodup hns'
              ((copyRecursiveSync fuel (src ++ [n]) (dest ++ [n]) (xf, [])).1,
                xt ++ (copyRecursiveSync fuel (src ++ [n]) (dest ++ [n]) (xf, [])).2)
              hx1' hx2' hx3' hx4' hord'' hmk''
            obtain ⟨ra, rb, rc, rd, re, rf, rg⟩ := hrec
            rw [hx'pair]
            refine ⟨?_, ?_, rc, rd, re, ?_, rg⟩
            · intro m hm rel hchain
              rcases List.mem_cons.1 hm with rfl | hm'
              · have hq1 : pathLe dest (dest ++ m :: rel) = true :=
                  pathLe_append dest (m :: rel)
                have hq2 : dest ++ m :: rel ≠ dest := by
                  intro hcon
                  have := congrArg List.length hcon
                  simp at this
                have hq3 : ∀ m' ∈ ns,
                    pathLe (dest ++ [m']) (dest ++ m :: rel) = false := by
                  intro m' hm'
                  cases hc : pathLe (dest ++ [m']) (dest ++ m :: rel) with
                  | false => rfl
                  | true =>
                    have := pathLe_child_head hc
                    exact absurd (this ▸ hm') hn_notin
                rw [rb (dest ++ m :: rel) hq1 hq2 hq3]
                cases rel with
                | nil =>
                  show lookupFS _ (dest ++ [m]) = lookupFS fs (src ++ [m])
                  rw [hdirY, hobj]
                | cons r rel' =>
                  have hchain' : chainFS xf (src ++ [m]) (r :: rel') = true := by
                    rw [chainFS_iff]
                    intro k hk0 hklen
                    have hck := (chainFS_iff.1 hchain) (k + 1) (by omega)
                      (by simp only [List.length_cons] at hklen ⊢; omega)
                    rw [List.take_succ_cons] at hck
                    rw [show src ++ m :: ((r :: rel').take k) =
                      (src ++ [m]) ++ (r :: rel').take k by simp] at hck
                    rw [lookup_congr_subFS hx1
                      (pathLe_append_right _ (pathLe_append src [m]))]
                    exact hck
                  have hmres := hmir' (r :: rel') (by simp) hchain'
                  rw [show dest ++ m :: r :: rel' = (dest ++ [m]) ++ r :: rel' by simp,
                    show src ++ m :: r :: rel' = (src ++ [m]) ++ r :: rel' by simp]
                  rw [hmres]
                  exact lookup_congr_subFS hx1
                    (pathLe_append_right _ (pathLe_append src [m]))
              · exact ra m hm' rel hchain
            · intro q hq hqne hqall
              rw [rb q hq hqne (fun m hm => hqall m (by simp [hm]))]
              show lookupFS
                (copyRecursiveSync fuel (src ++ [n]) (dest ++ [n]) (xf, [])).1 q =
                lookupFS xf q
              have hA : pathLe (dest ++ [n]) q = false := hqall n (by simp)
              have hB : pathLe q (dest ++ [n]) = false := by
                cases hc : pathLe q (dest ++ [n]) with
                | false => rfl
                | true =>
                  rcases pathLe_between hq hc with hqd | hqd
                  · exact absurd hqd hqne
                  · rw [hqd, pathLe_refl] at hA
                    exact absurd hA (by simp)
              exact copy_scope fuel (src ++ [n]) (dest ++ [n]) (xf, []) q hA
                (Or.inr hB)
            · obtain ⟨seg, hseg⟩ := rf
              exact ⟨(copyRecursiveSync fuel (src ++ [n]) (dest ++ [n]) (xf, [])).2 ++ seg,
                by rw [hseg]; simp⟩
          | file c =>
            have hnotdir : isDirectory xf (src ++ [n]) = false := by
              rw [isDirectory, hxval, hobj]
              simp
            have hx'pair : copyStep fuel src dest (xf, xt) n =
                (setFS xf (dest ++ [n]) (FSObj.file c),
                  xt ++ [Event.copyFile (src ++ [n]) (dest ++ [n])]) := by
              simp only [copyStep]
              rw [if_neg (by rw [hnotdir]; simp)]
              rw [copyFileSync_of_file (dest ++ [n]) (hxval.trans hobj)]
            have hx1' : subFS (setFS xf (dest ++ [n]) (FSObj.file c)) src =
                subFS fs src := by
              rw [subFS_setFS xf _ (pathLe_snoc_false h1 h2)]
              exact hx1
            have hx2' : ((setFS xf (dest ++ [n]) (FSObj.file c)).map Prod.fst).Nodup :=
              nodup_setFS hx2 _ _
            have hx3' : ∀ m ∈ ns, ∀ q, pathLe (dest ++ [m]) q = true →
                lookupFS (setFS xf (dest ++ [n]) (FSObj.file c)) q = none := by
              intro m hm q hq
              have hmn : m ≠ n := fun hcon => hn_notin (hcon ▸ hm)
              have hne2 : dest ++ [n] ≠ q := by
                intro hcon
                rw [← hcon] at hq
                have heq := pathLe_eq_of_length hq (by simp)
                have := List.append_cancel_left heq
                injection this with h3
                exact absurd h3 hmn
              rw [lookup_setFS, if_neg hne2]
              exact hx3 m (by simp [hm]) q hq
            have hx4' : lookupFS (setFS xf (dest ++ [n]) (FSObj.file c)) dest =
                some FSObj.dir := by
              rw [lookup_setFS, if_neg hchild_ne_dest]
              exact hx4
            have hord'' : OrderedTrace
                (xt ++ [Event.copyFile (src ++ [n]) (dest ++ [n])]) := by
              refine orderedTrace_snoc_copyFile hord ?_
              rw [dropLast_snoc]
              exact hmk
            have hmk'' : ∃ j, (xt ++
                [Event.copyFile (src ++ [n]) (dest ++ [n])]).get? j =
                some (Event.mkdir dest) := mkdir_witness_append hmk
            have hrec := ihn hns_nodup hns'
              (setFS xf (dest ++ [n]) (FSObj.file c),
                xt ++ [Event.copyFile (src ++ [n]) (dest ++ [n])])
              hx1' hx2' hx3' hx4' hord'' hmk''
            obtain ⟨ra, rb, rc, rd, re, rf, rg⟩ := hrec
            rw [hx'pair]
            refine ⟨?_, ?_, rc, rd, re, ?_, rg⟩
            · intro m hm rel hchain
              rcases List.mem_cons.1 hm with rfl | hm'
              · cases rel with
                | nil =>
                  have hq3 : ∀ m' ∈ ns,
                      pathLe (dest ++ [m']) (dest ++ [m]) = false :=
                    hchild_not_in_ns
                  rw [rb (dest ++ [m]) (pathLe_append dest [m]) hchild_ne_dest hq3]
                  show lookupFS (setFS xf (dest ++ [m]) (FSObj.file c)) (dest ++ [m]) =
                    lookupFS fs (src ++ [m])
                  rw [lookup_setFS, if_pos rfl, hobj]
                | cons r rel' =>
                  have hck := (chainFS_iff.1 hchain) 1 (by omega)
                    (by simp only [List.length_cons]; omega)
                  rw [show (m :: r :: rel').take 1 = [m] by simp,
                    hobj] at hck
                  exact absurd hck (by simp)
              · exact ra m hm' rel hchain
            · intro q hq hqne hqall
              rw [rb q hq hqne (fun m hm => hqall m (by simp [hm]))]
              show lookupFS (setFS xf (dest ++ [n]) (FSObj.file c)) q = lookupFS xf q
              have hA : pathLe (dest ++ [n]) q = false := hqall n (by simp)
              have hne2 : dest ++ [n] ≠ q := by
                intro hcon
                rw [← hcon, pathLe_refl] at hA
                exact absurd hA (by simp)
              rw [lookup_setFS, if_neg hne2]
            · obtain ⟨seg, hseg⟩ := rf
              exact ⟨[Event.copyFile (src ++ [n]) (dest ++ [n])] ++ seg,
                by rw [hseg]; simp⟩
    have hnames_eq : readdirSync (mkdirSyncRec fs dest) src = readdirSync fs src :=
      readdir_congr_subFS hsubM (pathLe_refl src)
    have hx3₀ : ∀ n ∈ readdirSync fs src, ∀ q,
        pathLe (dest ++ [n]) q = true →
        lookupFS (mkdirSyncRec fs dest) q = none := by
      intro n _ q hq
      have hdq : pathLe dest q = true := pathLe_trans (pathLe_append dest [n]) hq
      have hqd : pathLe q dest = false := by
        cases hc : pathLe q dest with
        | false => rfl
        | true =>
          have l1 := pathLe_length hc
          have l2 := pathLe_length hq
          simp at l2
          omega
      rw [lookup_mkdirSyncRec, if_neg (by
        intro hcon
        rw [hqd] at hcon
        exact absurd hcon.2.1 (by simp))]
      exact hfresh q hdq
    have hx4₀ : lookupFS (mkdirSyncRec fs dest) dest = some FSObj.dir := by
      rw [lookup_mkdirSyncRec,
        if_pos ⟨hfresh dest (pathLe_refl dest), pathLe_refl dest, hdne⟩]
    have hres := hfold (readdirSync fs src) (readdir_nodup hnd src)
      (fun n hn => mem_readdir.1 hn)
      (mkdirSyncRec fs dest, [Event.mkdir dest])
      hsubM (nodup_mkdirSyncRec hnd dest) hx3₀ hx4₀
      (orderedTrace_single_mkdir dest) ⟨0, rfl⟩
    obtain ⟨ra, rb, _, _, _, rf, rg⟩ := hres
    rw [show (mkdirSyncRec ((fs : FS), ([] : List Event)).1 dest,
        ((fs : FS), ([] : List Event)).2 ++ [Event.mkdir dest]) =
        ((mkdirSyncRec fs dest, [Event.mkdir dest]) : FS × List Event) from rfl,
      show readdirSync (mkdirSyncRec ((fs : FS), ([] : List Event)).1 dest) src =
        readdirSync fs src from hnames_eq]
    refine ⟨?_, ?_, rg⟩
    · intro rel hrelne hchain
      cases rel with
      | nil => exact absurd rfl hrelne
      | cons n rel' =>
        by_cases hn : n ∈ readdirSync fs src
        · exact ra n hn rel' hchain
        · have hnone : lookupFS fs (src ++ [n]) = none := by
            by_contra hcon
            exact hn (mem_readdir.2 hcon)
          cases rel' with
          | nil =>
            have hq2 : dest ++ [n] ≠ dest := by
              intro hcon
              have := congrArg List.length hcon
              simp at this
            have hq3 : ∀ m ∈ readdirSync fs src,
                pathLe (dest ++ [m]) (dest ++ [n]) = false := by
              intro m hm
              cases hc : pathLe (dest ++ [m]) (dest ++ [n]) with
              | false => rfl
              | true =>
                have heq := pathLe_eq_of_length hc (by simp)
                have := List.append_cancel_left heq
                injection this with h3
                exact absurd (h3 ▸ hm) hn
            rw [rb (dest ++ [n]) (pathLe_append dest [n]) hq2 hq3]
            show lookupFS (mkdirSyncRec fs dest) (dest ++ [n]) =
              lookupFS fs (src ++ [n])
            have hqd : pathLe (dest ++ [n]) dest = false := by
              cases hc : pathLe (dest ++ [n]) dest with
              | false => rfl
              | true =>
                have := pathLe_length hc
                simp at this
            rw [lookup_mkdirSyncRec, if_neg (by
              intro hcon
              rw [hqd] at hcon
              exact absurd hcon.2.1 (by simp))]
            rw [hfresh (dest ++ [n]) (pathLe_append dest [n]), hnone]
          | cons r2 rel2 =>
            have hck := (chainFS_iff.1 hchain) 1 (by omega)
              (by simp only [List.length_cons]; omega)
            rw [show (n :: r2 :: rel2).take 1 = [n] by simp, hnone] at hck
            exact absurd hck (by simp)
    · obtain ⟨seg, hseg⟩ := rf
      exact ⟨seg, by rw [hseg]; rfl⟩

/-! Behavior of the scoped installer. -/

theorem log_filter_isSpawn (m l : String) (s : Bool) :
    (log m l s).filter isSpawn = [] := by
  cases s <;> simp [log, isSpawn]

theorem log_filter_isRm (m l : String) (s : Bool) :
    (log m l s).filter isRm = [] := by
  cases s <;> simp [log, isRm]

theorem log_filter_isMutation (m l : String) (s : Bool) :
    (log m l s).filter isMutation = [] := by
  cases s <;> simp [log, isMutation]

theorem installDependencies_skip_pkg {env : Env} {dest : FPath}
    {dev silent : Bool} {fs : FS} {tr : List Event}
    (h : existsSync fs (dest ++ ["package.json"]) = false) :
    installDependencies env dest dev silent fs tr =
      (fs, tr ++ log ("[SKIP] No package.json in " ++ pathToString dest)
        "log" silent) := by
  simp only [installDependencies, h]
  rfl

theorem installDependencies_skip_nm {env : Env} {dest : FPath}
    {dev silent : Bool} {fs : FS} {tr : List Event}
    (h1 : existsSync fs (dest ++ ["package.json"]) = true)
    (h2 : existsSync fs (dest ++ ["node_modules"]) = true) :
    installDependencies env dest dev silent fs tr =
      (fs, tr ++ log ("[SKIP] Dependencies already present for " ++ basename dest)
        "log" silent) := by
  simp only [installDependencies, h1, h2]
  rfl

theorem installDependencies_run {env : Env} {dest : FPath}
    {dev silent : Bool} {fs : FS} {tr : List Event}
    (h1 : existsSync fs (dest ++ ["package.json"]) = true)
    (h2 : existsSync fs (dest ++ ["node_modules"]) = false) :
    installDependencies env dest dev silent fs tr =
      (fs,
        (tr ++
          log ("[INSTALL] Running npm " ++ String.intercalate " "
            (if dev then ["install", "--no-audit", "--no-fund"]
             else ["install", "--no-audit", "--no-fund", "--production"]) ++
            " in " ++ basename dest) "log" silent ++
          [Event.spawn "npm"
            (if dev then ["install", "--no-audit", "--no-fund"]
             else ["install", "--no-audit", "--no-fund", "--production"]) dest]) ++
        (if env.status dest ≠ 0 then
          log ("[ERROR] Failed to install dependencies for " ++ basename dest)
            "error" silent
         else [])) := by
  simp only [installDependencies, h1, h2]
  simp only [Bool.not_true]
  rw [if_neg (by simp), if_neg (by simp)]
  by_cases hst : env.status dest ≠ 0
  · rw [if_pos hst, if_pos hst]
  · rw [if_neg hst, if_neg hst]
    simp

theorem installDependencies_fs (env : Env) (dest : FPath) (dev silent : Bool)
    (fs : FS) (tr : List Event) :
    (installDependencies env dest dev silent fs tr).1 = fs := by
  by_cases h1 : existsSync fs (dest ++ ["package.json"]) = true
  · by_cases h2 : existsSync fs (dest ++ ["node_modules"]) = true
    · rw [installDependencies_skip_nm h1 h2]
    · rw [installDependencies_run h1 (Bool.eq_false_iff.mpr h2)]
  · rw [installDependencies_skip_pkg (Bool.eq_false_iff.mpr h1)]

theorem installDependencies_trace_ext (env : Env) (dest : FPath)
    (dev silent : Bool) (fs : FS) (tr : List Event) :
    ∃ seg, (installDependencies env dest dev silent fs tr).2 = tr ++ seg := by
  by_cases h1 : existsSync fs (dest ++ ["package.json"]) = true
  · by_cases h2 : existsSync fs (dest ++ ["node_modules"]) = true
    · rw [installDependencies_skip_nm h1 h2]
      exact ⟨_, rfl⟩
    · rw [installDependencies_run h1 (Bool.eq_false_iff.mpr h2)]
      refine ⟨log ("[INSTALL] Running npm " ++ String.intercalate " "
          (if dev then ["install", "--no-audit", "--no-fund"]
           else ["install", "--no-audit", "--no-fund", "--production"]) ++
          " in " ++ basename dest) "log" silent ++
        [Event.spawn "npm" (if dev then ["install", "--no-audit", "--no-fund"]
           else ["install", "--no-audit", "--no-fund", "--production"]) dest] ++
        (if env.status dest ≠ 0 then
          log ("[ERROR] Failed to install dependencies for " ++ basename dest)
            "error" silent
         else []), ?_⟩
      simp [List.append_assoc]
  · rw [installDependencies_skip_pkg (Bool.eq_false_iff.mpr h1)]
    exact ⟨_, rfl⟩

theorem installDependencies_filter_isRm (env : Env) (dest : FPath)
    (dev silent : Bool) (fs : FS) (tr : List Event) :
    (installDependencies env dest dev silent fs tr).2.filter isRm =
      tr.filter isRm := by
  by_cases h1 : existsSync fs (dest ++ ["package.json"]) = true
  · by_cases h2 : existsSync fs (dest ++ ["node_modules"]) = true
    · rw [installDependencies_skip_nm h1 h2]
      simp [List.filter_append, log_filter_isRm]
    · rw [installDependencies_run h1 (Bool.eq_false_iff.mpr h2)]
      by_cases hst : env.status dest ≠ 0 <;>
        simp [hst, List.filter_append, log_filter_isRm, isRm]
  · rw [installDependencies_skip_pkg (Bool.eq_false_iff.mpr h1)]
    simp [List.filter_append, log_filter_isRm]

theorem installDependencies_skip_filter_isSpawn {env : Env} {dest : FPath}
    {dev silent : Bool} {fs : FS} {tr : List Event}
    (h : existsSync fs (dest ++ ["package.json"]) = false ∨
      existsSync fs (dest ++ ["node_modules"]) = true) :
    (installDependencies env dest dev silent fs tr).2.filter isSpawn =
      tr.filter isSpawn := by
  rcases h with h | h
  · rw [installDependencies_skip_pkg h]
    simp [List.filter_append, log_filter_isSpawn]
  · by_cases h1 : existsSync fs (dest ++ ["package.json"]) = true
    · rw [installDependencies_skip_nm h1 h]
      simp [List.filter_append, log_filter_isSpawn]
    · rw [installDependencies_skip_pkg (Bool.eq_false_iff.mpr h1)]
      simp [List.filter_append, log_filter_isSpawn]

theorem installDependencies_run_filter_isSpawn {env : Env} {dest : FPath}
    {dev silent : Bool} {fs : FS} {tr : List Event}
    (h1 : existsSync fs (dest ++ ["package.json"]) = true)
    (h2 : existsSync fs (dest ++ ["node_modules"]) = false) :
    (installDependencies env dest dev silent fs tr).2.filter isSpawn =
      tr.filter isSpawn ++ [Event.spawn "npm"
        (if dev then ["install", "--no-audit", "--no-fund"]
         else ["install", "--no-audit", "--no-fund", "--production"]) dest] := by
  rw [installDependencies_run h1 h2]
  by_cases hst : env.status dest ≠ 0 <;>
    simp [hst, List.filter_append, log_filter_isSpawn, isSpawn]

/-! Behavior of the per-dependency step of the materializer. -/

theorem npmArgs_eq (dev : Bool) :
    npmArgs dev = (if dev then ["install", "--no-audit", "--no-fund"]
      else ["install", "--no-audit", "--no-fund", "--production"]) := rfl

theorem processDep_missing {env : Env} {silent noInstall dev : Bool}
    {fs : FS} {tr : List Event} {name : String} {v : JSValue}
    (h : lookupFS fs (storeEntry env name) = none) :
    processDep env silent noInstall dev (fs, tr) (name, v) =
      (fs, tr ++ log ("[WARN] " ++ name ++ " not found in node_modules")
        "warn" silent) := by
  have hex : existsSync fs (env.projectRoot ++ ["node_modules", name]) = false := by
    rw [existsSync]
    rw [storeEntry] at h
    rw [h]
    rfl
  simp only [processDep, hex]
  rfl

theorem processDep_not_symlink {env : Env} {silent noInstall dev : Bool}
    {fs : FS} {tr : List Event} {name : String} {v : JSValue} {o : FSObj}
    (h : lookupFS fs (storeEntry env name) = some o) (hno : o ≠ FSObj.symlink) :
    processDep env silent noInstall dev (fs, tr) (name, v) =
      (fs, tr ++ log ("[SKIP] " ++ name ++ " is not a symlink") "log" silent) := by
  have hex : existsSync fs (env.projectRoot ++ ["node_modules", name]) = true := by
    rw [existsSync]
    rw [storeEntry] at h
    rw [h]
    rfl
  have hsym : isSymbolicLink fs (env.projectRoot ++ ["node_modules", name]) = false := by
    rw [isSymbolicLink]
    rw [storeEntry] at h
    rw [h]
    simp
    intro hcon
    exact absurd hcon hno
  simp only [processDep, hex, hsym]
  rfl

theorem processDep_symlink {env : Env} {silent noInstall dev : Bool}
    {fs : FS} {tr : List Event} {name : String} {v : JSValue}
    (h : lookupFS fs (storeEntry env name) = some FSObj.symlink) :
    processDep env silent noInstall dev (fs, tr) (name, v) =
      (if noInstall then replacedState env silent fs tr name v
       else installDependencies env (storeEntry env name) dev silent
         (replacedState env silent fs tr name v).1
         (replacedState env silent fs tr name v).2) := by
  have hex : existsSync fs (env.projectRoot ++ ["node_modules", name]) = true := by
    rw [existsSync]
    rw [storeEntry] at h
    rw [h]
    rfl
  have hsym : isSymbolicLink fs (env.projectRoot ++ ["node_modules", name]) = true := by
    rw [isSymbolicLink]
    rw [storeEntry] at h
    rw [h]
    simp
  simp only [processDep, hex, hsym, storeEntry]
  cases v <;> rfl

theorem storeEntry_ne_nil (env : Env) (name : String) :
    storeEntry env name ≠ [] := by
  rw [storeEntry]
  simp

theorem replacedState_dest_dir (env : Env) (silent : Bool) (fs : FS)
    (tr : List Event) (name : String) (v : JSValue) :
    lookupFS (replacedState env silent fs tr name v).1 (storeEntry env name) =
      some FSObj.dir := by
  rw [replacedState]
  have hmiss : existsSync (rmSyncRec fs (storeEntry env name))
      (storeEntry env name) = false := by
    rw [existsSync, lookup_rmSyncRec, if_pos (pathLe_refl _)]
    rfl
  exact copy_dest_dir hmiss (storeEntry_ne_nil env name)

theorem processDep_dest_dir {env : Env} {silent noInstall dev : Bool}
    {fs : FS} {tr : List Event} {name : String} {v : JSValue}
    (h : lookupFS fs (storeEntry env name) = some FSObj.symlink) :
    lookupFS (processDep env silent noInstall dev (fs, tr) (name, v)).1
      (storeEntry env name) = some FSObj.dir := by
  rw [processDep_symlink h]
  by_cases hni : noInstall = true
  · rw [if_pos hni]
    exact replacedState_dest_dir env silent fs tr name v
  · rw [if_neg hni, installDependencies_fs]
    exact replacedState_dest_dir env silent fs tr name v

theorem replacedState_no_new_symlink {env : Env} {silent : Bool} {fs : FS}
    {tr : List Event} {name : String} {v : JSValue} {q : FPath}
    (h : lookupFS (replacedState env silent fs tr name v).1 q =
      some FSObj.symlink) : lookupFS fs q = some FSObj.symlink := by
  rw [replacedState] at h
  have hrm := copy_no_new_symlink _ _ _ _ _ h
  rw [lookup_rmSyncRec] at hrm
  by_cases hq : pathLe (storeEntry env name) q = true
  · rw [if_pos hq] at hrm
    exact absurd hrm (by simp)
  · rw [if_neg hq] at hrm
    exact hrm

theorem processDep_no_new_symlink {env : Env} {silent noInstall dev : Bool}
    {fs : FS} {tr : List Event} {dep : String × JSValue} {q : FPath}
    (h : lookupFS (processDep env silent noInstall dev (fs, tr) dep).1 q =
      some FSObj.symlink) :
    lookupFS fs q = some FSObj.symlink := by
  obtain ⟨name, v⟩ := dep
  cases hl : lookupFS fs (storeEntry env name) with
  | none =>
    rw [processDep_missing hl] at h
    exact h
  | some o =>
    by_cases ho : o = FSObj.symlink
    · subst ho
      rw [processDep_symlink hl] at h
      by_cases hni : noInstall = true
      · rw [if_pos hni] at h
        exact replacedState_no_new_symlink h
      · rw [if_neg hni, installDependencies_fs] at h
        exact replacedState_no_new_symlink h
    · rw [processDep_not_symlink hl ho] at h
      exact h

/-! Trace extension and normalization through the per-dependency step. -/

theorem ext_trans {tr x y : List Event} (h1 : ∃ s, x = tr ++ s)
    (h2 : ∃ t, y = x ++ t) : ∃ u, y = tr ++ u := by
  obtain ⟨s, hs⟩ := h1
  obtain ⟨t, ht⟩ := h2
  exact ⟨s ++ t, by rw [ht, hs, List.append_assoc]⟩

theorem installDependencies_trace_norm (env : Env) (dest : FPath)
    (dev silent : Bool) (fs : FS) (tr : List Event) :
    installDependencies env dest dev silent fs tr =
      (fs, tr ++ (installDependencies env dest dev silent fs []).2) := by
  by_cases h1 : existsSync fs (dest ++ ["package.json"]) = true
  · by_cases h2 : existsSync fs (dest ++ ["node_modules"]) = true
    · rw [installDependencies_skip_nm h1 h2, installDependencies_skip_nm h1 h2]
      simp
    · rw [installDependencies_run h1 (Bool.eq_false_iff.mpr h2),
        installDependencies_run h1 (Bool.eq_false_iff.mpr h2)]
      simp [List.append_assoc]
  · rw [installDependencies_skip_pkg (Bool.eq_false_iff.mpr h1),
      installDependencies_skip_pkg (Bool.eq_false_iff.mpr h1)]
    simp

theorem installDependencies_filter_isMutation_skip {env : Env} {dest : FPath}
    {dev silent : Bool} {fs : FS} {tr : List Event}
    (h : existsSync fs (dest ++ ["package.json"]) = false ∨
      existsSync fs (dest ++ ["node_modules"]) = true) :
    (installDependencies env dest dev silent fs tr).2.filter isMutation =
      tr.filter isMutation := by
  rcases h with h | h
  · rw [installDependencies_skip_pkg h]
    simp [List.filter_append, log_filter_isMutation]
  · by_cases h1 : existsSync fs (dest ++ ["package.json"]) = true
    · rw [installDependencies_skip_nm h1 h]
      simp [List.filter_append, log_filter_isMutation]
    · rw [installDependencies_skip_pkg (Bool.eq_false_iff.mpr h1)]
      simp [List.filter_append, log_filter_isMutation]

theorem installDependencies_filter_isMutation_run {env : Env} {dest : FPath}
    {dev silent : Bool} {fs : FS} {tr : List Event}
    (h1 : existsSync fs (dest ++ ["package.json"]) = true)
    (h2 : existsSync fs (dest ++ ["node_modules"]) = false) :
    (installDependencies env dest dev silent fs tr).2.filter isMutation =
      tr.filter isMutation ++ [Event.spawn "npm" (npmArgs dev) dest] := by
  rw [installDependencies_run h1 h2, npmArgs_eq]
  by_cases hst : env.status dest ≠ 0 <;>
    simp [hst, List.filter_append, log_filter_isMutation, isMutation]

theorem processDep_trace_norm (env : Env) (silent noInstall dev : Bool)
    (fs : FS) (tr : List Event) (dep : String × JSValue) :
    processDep env silent noInstall dev (fs, tr) dep =
      ((processDep env silent noInstall dev (fs, []) dep).1,
        tr ++ (processDep env silent noInstall dev (fs, []) dep).2) := by
  obtain ⟨name, v⟩ := dep
  cases hl : lookupFS fs (storeEntry env name) with
  | none =>
    rw [processDep_missing hl, processDep_missing hl]
    simp
  | some o =>
    by_cases ho : o = FSObj.symlink
    · subst ho
      rw [processDep_symlink hl, processDep_symlink hl]
      have hrepl : replacedState env silent fs tr name v =
          ((replacedState env silent fs [] name v).1,
            tr ++ (replacedState env silent fs [] name v).2) := by
        rw [replacedState, replacedState]
        rw [copy_trace _ _ _ (rmSyncRec fs (storeEntry env name))
          (tr ++ log ("[REPLACE] " ++ name ++
            ": replacing symlink with copy from " ++
            stripFileMarker (versionString v)) "log" silent ++
            [Event.rm (storeEntry env name)]),
          copy_trace _ _ _ (rmSyncRec fs (storeEntry env name))
          ([] ++ log ("[REPLACE] " ++ name ++
            ": replacing symlink with copy from " ++
            stripFileMarker (versionString v)) "log" silent ++
            [Event.rm (storeEntry env name)])]
        simp [List.append_assoc]
      by_cases hni : noInstall = true
      · rw [if_pos hni, if_pos hni]
        exact hrepl
      · rw [if_neg hni, if_neg hni]
        rw [hrepl]
        rw [installDependencies_trace_norm _ _ _ _ _
          (tr ++ (replacedState env silent fs [] name v).2),
          installDependencies_trace_norm _ _ _ _ _
          (replacedState env silent fs [] name v).2]
        simp [List.append_assoc]
    · rw [processDep_not_symlink hl ho, processDep_not_symlink hl ho]
      simp

theorem processDep_trace_ext (env : Env) (silent noInstall dev : Bool)
    (fs : FS) (tr : List Event) (dep : String × JSValue) :
    ∃ seg, (processDep env silent noInstall dev (fs, tr) dep).2 = tr ++ seg := by
  rw [processDep_trace_norm]
  exact ⟨_, rfl⟩

/-! The per-dependency step never writes outside the dependency store. -/

theorem processDep_scope {env : Env} {silent noInstall dev : Bool}
    {fs : FS} {tr : List Event} {dep : String × JSValue} {q : FPath}
    (h1 : pathLe (env.projectRoot ++ ["node_modules"]) q = false)
    (h2 : pathLe q (env.projectRoot ++ ["node_modules"]) = false) :
    lookupFS (processDep env silent noInstall dev (fs, tr) dep).1 q =
      lookupFS fs q := by
  obtain ⟨name, v⟩ := dep
  have hsplit : storeEntry env name =
      (env.projectRoot ++ ["node_modules"]) ++ [name] := by
    rw [storeEntry]
    simp
  have hd1 : pathLe (storeEntry env name) q = false := by
    cases hc : pathLe (storeEntry env name) q with
    | false => rfl
    | true =>
      have hle : pathLe (env.projectRoot ++ ["node_modules"]) q = true := by
        refine pathLe_trans ?_ hc
        rw [hsplit]
        exact pathLe_append _ _
      rw [h1] at hle
      exact absurd hle (by simp)
  have hd2 : pathLe q (storeEntry env name) = false := by
    cases hc : pathLe q (storeEntry env name) with
    | false => rfl
    | true =>
      rw [hsplit] at hc
      rcases pathLe_snoc hc with hle | heq
      · rw [h2] at hle
        exact absurd hle (by simp)
      · rw [heq, ← hsplit, pathLe_refl] at hd1
        exact absurd hd1 (by simp)
  cases hl : lookupFS fs (storeEntry env name) with
  | none => rw [processDep_missing hl]
  | some o =>
    by_cases ho : o = FSObj.symlink
    · subst ho
      rw [processDep_symlink hl]
      have hrepl : lookupFS (replacedState env silent fs tr name v).1 q =
          lookupFS fs q := by
        rw [replacedState]
        rw [copy_scope _ _ _ _ q hd1 (Or.inr hd2)]
        show lookupFS (rmSyncRec fs (storeEntry env name)) q = lookupFS fs q
        rw [lookup_rmSyncRec, if_neg (by rw [hd1]; simp)]
      by_cases hni : noInstall = true
      · rw [if_pos hni]
        exact hrepl
      · rw [if_neg hni, installDependencies_fs]
        exact hrepl
    · rw [processDep_not_symlink hl ho]

/-! Unfolding the materializer entry point. -/

theorem unlink_ok {env : Env} {opts : List (String × Bool)} {fs : FS}
    {content : Nat} {pkg : Manifest}
    (hc : readFileSync fs (env.projectRoot ++ ["package.json"]) = some content)
    (hp : env.parse content = some pkg) :
    unlinkLocalDependencies env opts fs = Except.ok
      (((mergedDeps pkg).filter fun e => isFileSpec e.2).foldl
        (processDep env (getBoolOpt opts "silent") (getBoolOpt opts "noInstall")
          (getBoolOpt opts "dev")) (fs, [])) := by
  simp only [unlinkLocalDependencies, hc, hp]

theorem unlink_err_missing {env : Env} {opts : List (String × Bool)} {fs : FS}
    (hc : readFileSync fs (env.projectRoot ++ ["package.json"]) = none) :
    unlinkLocalDependencies env opts fs =
      Except.error "ENOENT: no such file or directory" := by
  simp only [unlinkLocalDependencies, hc]

theorem unlink_err_parse {env : Env} {opts : List (String × Bool)} {fs : FS}
    {content : Nat}
    (hc : readFileSync fs (env.projectRoot ++ ["package.json"]) = some content)
    (hp : env.parse content = none) :
    unlinkLocalDependencies env opts fs =
      Except.error "Unexpected token in JSON" := by
  simp only [unlinkLocalDependencies, hc, hp]

/-! The run as a whole: frame, symlink monotonicity, and the no-op rerun. -/

theorem processFold_frame (env : Env) (sil nI d : Bool)
    (L : List (String × JSValue)) :
    ∀ (st : FS × List Event) (q : FPath),
    pathLe (env.projectRoot ++ ["node_modules"]) q = false →
    pathLe q (env.projectRoot ++ ["node_modules"]) = false →
    lookupFS (L.foldl (processDep env sil nI d) st).1 q = lookupFS st.1 q := by
  induction L with
  | nil => intro st q _ _; rfl
  | cons dep L ihl =>
    intro st q h1 h2
    simp only [List.foldl_cons]
    rw [ihl _ q h1 h2]
    obtain ⟨f, t⟩ := st
    exact processDep_scope h1 h2

theorem processFold_no_new_symlink (env : Env) (sil nI d : Bool)
    (L : List (String × JSValue)) :
    ∀ (st : FS × List Event) (q : FPath),
    lookupFS (L.foldl (processDep env sil nI d) st).1 q = some FSObj.symlink →
    lookupFS st.1 q = some FSObj.symlink := by
  induction L with
  | nil => intro st q h; exact h
  | cons dep L ihl =>
    intro st q h
    simp only [List.foldl_cons] at h
    obtain ⟨f, t⟩ := st
    exact processDep_no_new_symlink (ihl _ q h)

theorem processFold_nonsym (env : Env) (sil nI d : Bool)
    (L : List (String × JSValue)) :
    ∀ (st : FS × List Event), ∀ dep ∈ L,
    lookupFS (L.foldl (processDep env sil nI d) st).1 (storeEntry env dep.1) ≠
      some FSObj.symlink := by
  induction L with
  | nil => intro st dep h; cases h
  | cons dep0 L ihl =>
    intro st dep hdep
    simp only [List.foldl_cons]
    rcases List.mem_cons.1 hdep with rfl | hmem
    · intro hcon
      obtain ⟨f, t⟩ := st
      obtain ⟨name, v⟩ := dep
      have hstep := processFold_no_new_symlink env sil nI d L _ _ hcon
      cases hl : lookupFS f (storeEntry env name) with
      | none =>
        rw [processDep_missing hl] at hstep
        rw [hl] at hstep
        cases hstep
      | some o =>
        by_cases ho : o = FSObj.symlink
        · subst ho
          have hdir := @processDep_dest_dir env sil nI d f t name v hl
          rw [hdir] at hstep
          cases hstep
        · rw [processDep_not_symlink hl ho] at hstep
          rw [hl] at hstep
          injection hstep with h2
          exact ho h2
    · exact ihl _ dep hmem

theorem processFold_noop (env : Env) (sil nI d : Bool)
    (L : List (String × JSValue)) :
    ∀ (f : FS) (t : List Event),
    (∀ dep ∈ L, lookupFS f (storeEntry env dep.1) ≠ some FSObj.symlink) →
    ∃ seg, L.foldl (processDep env sil nI d) (f, t) = (f, t ++ seg) ∧
      seg.filter isMutation = [] := by
  induction L with
  | nil => intro f t _; exact ⟨[], by simp, rfl⟩
  | cons dep L ihl =>
    intro f t hL
    obtain ⟨name, v⟩ := dep
    simp only [List.foldl_cons]
    have hd := hL (name, v) (by simp)
    have hrest : ∀ dep ∈ L, lookupFS f (storeEntry env dep.1) ≠ some FSObj.symlink :=
      fun dep hdep => hL dep (by simp [hdep])
    cases hl : lookupFS f (storeEntry env name) with
    | none =>
      rw [processDep_missing hl]
      obtain ⟨seg, hfold, hmut⟩ := ihl f
        (t ++ log ("[WARN] " ++ name ++ " not found in node_modules") "warn" sil)
        hrest
      refine ⟨log ("[WARN] " ++ name ++ " not found in node_modules") "warn" sil
        ++ seg, ?_, ?_⟩
      · rw [hfold]
        simp [List.append_assoc]
      · simp [List.filter_append, hmut, log_filter_isMutation]
    | some o =>
      have ho : o ≠ FSObj.symlink := fun hcon => hd (by rw [hl, hcon])
      rw [processDep_not_symlink hl ho]
      obtain ⟨seg, hfold, hmut⟩ := ihl f
        (t ++ log ("[SKIP] " ++ name ++ " is not a symlink") "log" sil)
        hrest
      refine ⟨log ("[SKIP] " ++ name ++ " is not a symlink") "log" sil
        ++ seg, ?_, ?_⟩
      · rw [hfold]
        simp [List.append_assoc]
      · simp [List.filter_append, hmut, log_filter_isMutation]

theorem readFileSync_congr {fs fs' : FS} {p : FPath}
    (h : lookupFS fs' p = lookupFS fs p) :
    readFileSync fs' p = readFileSync fs p := by
  rw [readFileSync, readFileSync, h]

/-- C8: Idempotence.  A successful materialize run leaves a state on which
running materialize again with the same options succeeds, changes nothing,
and emits no removal, directory creation, file copy or install invocation —
only console output. -/
theorem c8_idempotence (env : Env) (opts : List (String × Bool)) (fs fs1 : FS)
    (tr1 : List Event)
    (h : unlinkLocalDependencies env opts fs = Except.ok (fs1, tr1)) :
    ∃ tr2, unlinkLocalDependencies env opts fs1 = Except.ok (fs1, tr2) ∧
      tr2.filter isMutation = [] := by
  cases hc : readFileSync fs (env.projectRoot ++ ["package.json"]) with
  | none =>
    rw [unlink_err_missing hc] at h
    cases h
  | some content =>
    cases hp : env.parse content with
    | none =>
      rw [unlink_err_parse hc hp] at h
      cases h
    | some pkg =>
      rw [unlink_ok hc hp] at h
      injection h with h
      have hpkg1 : pathLe (env.projectRoot ++ ["node_modules"])
          (env.projectRoot ++ ["package.json"]) = false := by
        rw [pathLe_append_left_cancel]
        decide
      have hpkg2 : pathLe (env.projectRoot ++ ["package.json"])
          (env.projectRoot ++ ["node_modules"]) = false := by
        rw [pathLe_append_left_cancel]
        decide
      have hlook : lookupFS fs1 (env.projectRoot ++ ["package.json"]) =
          lookupFS fs (env.projectRoot ++ ["package.json"]) := by
        have hfr := processFold_frame env (getBoolOpt opts "silent")
          (getBoolOpt opts "noInstall") (getBoolOpt opts "dev")
          ((mergedDeps pkg).filter fun e => isFileSpec e.2) (fs, [])
          (env.projectRoot ++ ["package.json"]) hpkg1 hpkg2
        rw [h] at hfr
        exact hfr
      have hread : readFileSync fs1 (env.projectRoot ++ ["package.json"]) =
          some content := by
        rw [readFileSync_congr hlook]
        exact hc
      rw [unlink_ok hread hp]
      have hnons : ∀ dep ∈ (mergedDeps pkg).filter fun e => isFileSpec e.2,
          lookupFS fs1 (storeEntry env dep.1) ≠ some FSObj.symlink := by
        intro dep hdep
        have hns := processFold_nonsym env (getBoolOpt opts "silent")
          (getBoolOpt opts "noInstall") (getBoolOpt opts "dev")
          ((mergedDeps pkg).filter fun e => isFileSpec e.2) (fs, []) dep hdep
        rw [h] at hns
        exact hns
      obtain ⟨seg, hfold, hmut⟩ := processFold_noop env
        (getBoolOpt opts "silent") (getBoolOpt opts "noInstall")
        (getBoolOpt opts "dev")
        ((mergedDeps pkg).filter fun e => isFileSpec e.2) fs1 [] hnons
      refine ⟨[] ++ seg, ?_, ?_⟩
      · rw [hfold]
      · simpa using hmut

/-! Lookup through the object spread. -/

theorem lookupKey_append {α : Type} (l1 l2 : List (String × α)) (k : String) :
    lookupKey (l1 ++ l2) k =
      match lookupKey l1 k with
      | some v => some v
      | none => lookupKey l2 k := by
  induction l1 with
  | nil => simp [lookupKey]
  | cons e rest ih =>
    simp only [List.cons_append, lookupKey]
    by_cases he : e.1 = k
    · simp [he]
    · simp [he, ih]

theorem lookupKey_map_override (a b : JSObj) (k : String) :
    lookupKey (a.map fun e =>
      match lookupKey b e.1 with
      | some w => (e.1, w)
      | none => e) k =
      match lookupKey a k with
      | some v =>
        some (match lookupKey b k with
          | some w => w
          | none => v)
      | none => none := by
  induction a with
  | nil => simp [lookupKey]
  | cons e rest ih =>
    simp only [List.map_cons, lookupKey]
    by_cases he : e.1 = k
    · cases hb : lookupKey b e.1 with
      | none =>
        simp only [hb, lookupKey, he, if_pos]
        rw [← he, hb]
      | some w =>
        simp only [hb, lookupKey]
        rw [show ((e.1, w) : String × JSValue).1 = e.1 from rfl, if_pos he,
          if_pos he, ← he, hb]
    · cases hb : lookupKey b e.1 with
      | none =>
        simp only [hb, lookupKey, if_neg he, ih]
      | some w =>
        simp only [hb, lookupKey]
        rw [show ((e.1, w) : String × JSValue).1 = e.1 from rfl, if_neg he,
          if_neg he, ih]

theorem lookupKey_filter_key {α : Type} (P : String → Bool)
    (l : List (String × α)) (k : String) :
    lookupKey (l.filter fun e => P e.1) k =
      if P k = true then lookupKey l k else none := by
  induction l with
  | nil => simp [lookupKey]
  | cons e rest ih =>
    simp only [List.filter_cons]
    by_cases hp : P e.1 = true
    · rw [if_pos hp]
      simp only [lookupKey]
      by_cases he : e.1 = k
      · have hPk : P k = true := he ▸ hp
        simp [he, hPk]
      · simp [he, ih]
    · rw [if_neg hp, ih]
      by_cases he : e.1 = k
      · have hPk : P k = false := by
          rw [← he]
          exact Bool.eq_false_iff.2 hp
        simp [lookupKey, he, hPk]
      · simp [lookupKey, he]

theorem lookupKey_spreadMerge (a b : JSObj) (k : String) :
    lookupKey (spreadMerge a b) k =
      match lookupKey b k with
      | some w => some w
      | none => lookupKey a k := by
  rw [spreadMerge, lookupKey_append, lookupKey_map_override,
    lookupKey_filter_key (fun x => (lookupKey a x).isNone) b k]
  cases ha : lookupKey a k with
  | none =>
    cases hb : lookupKey b k with
    | none => simp [ha, hb]
    | some w => simp [ha, hb]
  | some v =>
    cases hb : lookupKey b k with
    | none => simp [ha, hb]
    | some w => simp [ha, hb]

/-- C2: Merge precedence.  Looking a name up in the merged dependency
groups yields the optionalDependencies binding first, then
peerDependencies, then devDependencies, then dependencies — later groups
override earlier ones, so a name in both dependencies and devDependencies
resolves to the devDependencies value. -/
theorem c2_merge_precedence (pkg : Manifest) (k : String) :
    lookupKey (mergedDeps pkg) k =
      (match lookupKey (pkg.optionalDependencies.getD []) k with
       | some v => some v
       | none =>
         match lookupKey (pkg.peerDependencies.getD []) k with
         | some v => some v
         | none =>
           match lookupKey (pkg.devDependencies.getD []) k with
           | some v => some v
           | none => lookupKey (pkg.dependencies.getD []) k) := by
  rw [mergedDeps, lookupKey_spreadMerge, lookupKey_spreadMerge,
    lookupKey_spreadMerge]

/-! The file-path filter drops a dependency before any processing. -/

theorem foldl_filter_drop (env : Env) (sil nI d : Bool)
    (st : FS × List Event) (L1 L2 : List (String × JSValue))
    (name : String) (v : JSValue) (h : isFileSpec v = false) :
    ((L1 ++ (name, v) :: L2).filter fun e => isFileSpec e.2).foldl
      (processDep env sil nI d) st =
    ((L1 ++ L2).filter fun e => isFileSpec e.2).foldl
      (processDep env sil nI d) st := by
  rw [List.filter_append, List.filter_append, List.filter_cons]
  simp [h]

/-- C9: Filter correctness.  A merged dependency whose specifier is not a
string beginning with the file marker is dropped by the filter: its
presence in the merged list changes neither the filesystem nor the trace of
the run, and a manifest with no file-path dependencies at all makes the
whole run a no-op with an empty trace. -/
theorem c9_filter_correctness :
    (∀ (env : Env) (sil nI d : Bool) (st : FS × List Event)
      (L1 L2 : List (String × JSValue)) (name : String) (v : JSValue),
      isFileSpec v = false →
      ((L1 ++ (name, v) :: L2).filter fun e => isFileSpec e.2).foldl
        (processDep env sil nI d) st =
      ((L1 ++ L2).filter fun e => isFileSpec e.2).foldl
        (processDep env sil nI d) st) ∧
    (∀ (env : Env) (opts : List (String × Bool)) (fs : FS) (content : Nat)
      (pkg : Manifest),
      readFileSync fs (env.projectRoot ++ ["package.json"]) = some content →
      env.parse content = some pkg →
      ((mergedDeps pkg).filter fun e => isFileSpec e.2) = [] →
      unlinkLocalDependencies env opts fs = Except.ok (fs, [])) := by
  constructor
  · intro env sil nI d st L1 L2 name v h
    exact foldl_filter_drop env sil nI d st L1 L2 name v h
  · intro env opts fs content pkg hc hp hfil
    rw [unlink_ok hc hp, hfil]
    rfl

/-- C9 witness: a semver range specifier is filtered out, so inserting it
into a dependency list leaves the run on a concrete store untouched. -/
theorem c9_witness :
    isFileSpec (JSValue.str "^1.0.0") = false ∧
    (List.filter (fun e => isFileSpec e.2)
      ([] ++ ("regular", JSValue.str "^1.0.0") :: [])).foldl
      (processDep ⟨[], fun _ => [], fun _ => none, fun _ => 0⟩ false false false)
      ([(["a"], FSObj.dir)], []) =
    (List.filter (fun e => isFileSpec e.2) ([] ++ [])).foldl
      (processDep ⟨[], fun _ => [], fun _ => none, fun _ => 0⟩ false false false)
      ([(["a"], FSObj.dir)], []) := by
  refine ⟨by decide, ?_⟩
  exact c9_filter_correctness.1 ⟨[], fun _ => [], fun _ => none, fun _ => 0⟩
    false false false _ [] [] "regular" (JSValue.str "^1.0.0") (by decide)

/-- C10: Non-string specifiers are safe.  The filter requires the specifier
to be a string before testing the file marker, so a non-string value (a
number, boolean or null) never passes the filter, the step function is
never invoked for it, and the run is total: the entry contributes no store
mutation and no failure. -/
theorem c10_non_string_safe :
    (∀ v : JSValue, (∀ s, v ≠ JSValue.str s) → isFileSpec v = false) ∧
    (∀ (env : Env) (sil nI d : Bool) (st : FS × List Event)
      (L1 L2 : List (String × JSValue)) (name : String) (v : JSValue),
      (∀ s, v ≠ JSValue.str s) →
      ((L1 ++ (name, v) :: L2).filter fun e => isFileSpec e.2).foldl
        (processDep env sil nI d) st =
      ((L1 ++ L2).filter fun e => isFileSpec e.2).foldl
        (processDep env sil nI d) st) := by
  have hval : ∀ v : JSValue, (∀ s, v ≠ JSValue.str s) → isFileSpec v = false := by
    intro v hv
    cases v with
    | str s => exact absurd rfl (hv s)
    | num n => rfl
    | boolean b => rfl
    | null => rfl
  refine ⟨hval, ?_⟩
  intro env sil nI d st L1 L2 name v hv
  exact foldl_filter_drop env sil nI d st L1 L2 name v (hval v hv)

/-- C10 witness: a numeric specifier is rejected by the filter and its
presence changes nothing on a concrete run. -/
theorem c10_witness :
    isFileSpec (JSValue.num 3) = false ∧
    (List.filter (fun e => isFileSpec e.2)
      ([] ++ ("weird", JSValue.num 3) :: [])).foldl
      (processDep ⟨[], fun _ => [], fun _ => none, fun _ => 0⟩ false false false)
      ([], []) =
    (List.filter (fun e => isFileSpec e.2) ([] ++ [])).foldl
      (processDep ⟨[], fun _ => [], fun _ => none, fun _ => 0⟩ false false false)
      ([], []) := by
  refine ⟨by decide, ?_⟩
  exact c10_non_string_safe.2 ⟨[], fun _ => [], fun _ => none, fun _ => 0⟩
    false false false _ [] [] "weird" (JSValue.num 3)
    (by intro s h; cases h)

/-! The symlink gate of the materializer. -/

theorem rm_mem_replacedState (env : Env) (silent : Bool) (fs : FS)
    (tr : List Event) (name : String) (v : JSValue) :
    Event.rm (storeEntry env name) ∈ (replacedState env silent fs tr name v).2 := by
  rw [replacedState]
  rw [copy_trace]
  refine List.mem_append_left _ ?_
  simp

theorem rm_mem_processDep {env : Env} {silent noInstall dev : Bool}
    {fs : FS} {tr : List Event} {name : String} {v : JSValue}
    (h : lookupFS fs (storeEntry env name) = some FSObj.symlink) :
    Event.rm (storeEntry env name) ∈
      (processDep env silent noInstall dev (fs, tr) (name, v)).2 := by
  rw [processDep_symlink h]
  by_cases hni : noInstall = true
  · rw [if_pos hni]
    exact rm_mem_replacedState env silent fs tr name v
  · rw [if_neg hni]
    obtain ⟨seg, hseg⟩ := installDependencies_trace_ext env
      (storeEntry env name) dev silent
      (replacedState env silent fs tr name v).1
      (replacedState env silent fs tr name v).2
    rw [hseg]
    exact List.mem_append_left _ (rm_mem_replacedState env silent fs tr name v)

theorem rm_not_mem_log {p : FPath} {m l : String} {s : Bool} :
    Event.rm p ∉ log m l s := by
  cases s <;> simp [log]

/-- C1: Symlink gate.  The per-dependency step removes and recopies the
store entry exactly when the entry exists and is a symbolic link; a missing
entry only produces a warning with no change, a present non-symlink entry
only an informational skip with no change, and a replaced entry ends up as
a real directory. -/
theorem c1_symlink_gate (env : Env) (silent noInstall dev : Bool) (fs : FS)
    (name : String) (v : JSValue) :
    (lookupFS fs (storeEntry env name) = none →
      processDep env silent noInstall dev (fs, []) (name, v) =
        (fs, log ("[WARN] " ++ name ++ " not found in node_modules")
          "warn" silent)) ∧
    (∀ o, lookupFS fs (storeEntry env name) = some o → o ≠ FSObj.symlink →
      processDep env silent noInstall dev (fs, []) (name, v) =
        (fs, log ("[SKIP] " ++ name ++ " is not a symlink") "log" silent)) ∧
    ((∃ p, Event.rm p ∈
        (processDep env silent noInstall dev (fs, []) (name, v)).2) ↔
      lookupFS fs (storeEntry env name) = some FSObj.symlink) ∧
    (lookupFS fs (storeEntry env name) = some FSObj.symlink →
      Event.rm (storeEntry env name) ∈
        (processDep env silent noInstall dev (fs, []) (name, v)).2 ∧
      lookupFS (processDep env silent noInstall dev (fs, []) (name, v)).1
        (storeEntry env name) = some FSObj.dir) := by
  refine ⟨?_, ?_, ?_, ?_⟩
  · intro h
    rw [processDep_missing h]
    simp
  · intro o h ho
    rw [processDep_not_symlink h ho]
    simp
  · constructor
    · rintro ⟨p, hp⟩
      by_contra hns
      cases hl : lookupFS fs (storeEntry env name) with
      | none =>
        rw [processDep_missing hl] at hp
        rw [List.nil_append] at hp
        exact rm_not_mem_log hp
      | some o =>
        by_cases ho : o = FSObj.symlink
        · exact hns (ho ▸ hl)
        · rw [processDep_not_symlink hl ho] at hp
          rw [List.nil_append] at hp
          exact rm_not_mem_log hp
    · intro h
      exact ⟨storeEntry env name, rm_mem_processDep h⟩
  · intro h
    exact ⟨rm_mem_processDep h, processDep_dest_dir h⟩

/-- C1 witness: on a concrete store with one symlinked entry the gate fires
and replaces the entry with a directory, and the remove event appears. -/
theorem c1_witness :
    Event.rm (storeEntry ⟨["p"], fun _ => ["s"], fun _ => none, fun _ => 0⟩ "a") ∈
      (processDep ⟨["p"], fun _ => ["s"], fun _ => none, fun _ => 0⟩
        false false false
        ([(["p", "node_modules", "a"], FSObj.symlink), (["s"], FSObj.dir),
          (["s", "i.js"], FSObj.file 7)], [])
        ("a", JSValue.str "file:../s")).2 ∧
    lookupFS (processDep ⟨["p"], fun _ => ["s"], fun _ => none, fun _ => 0⟩
        false false false
        ([(["p", "node_modules", "a"], FSObj.symlink), (["s"], FSObj.dir),
          (["s", "i.js"], FSObj.file 7)], [])
        ("a", JSValue.str "file:../s")).1
      (storeEntry ⟨["p"], fun _ => ["s"], fun _ => none, fun _ => 0⟩ "a") =
      some FSObj.dir := by
  exact (c1_symlink_gate ⟨["p"], fun _ => ["s"], fun _ => none, fun _ => 0⟩
    false false false
    [(["p", "node_modules", "a"], FSObj.symlink), (["s"], FSObj.dir),
      (["s", "i.js"], FSObj.file 7)] "a" (JSValue.str "file:../s")).2.2.2
    (by decide)

/-! Recursive copy fidelity, stated over decidable side conditions. -/

theorem lookupFS_mem {fs : FS} {q : FPath} {o : FSObj}
    (h : lookupFS fs q = some o) : (q, o) ∈ fs := by
  induction fs with
  | nil => simp [lookupFS] at h
  | cons e rest ih =>
    rw [lookupFS] at h
    by_cases he : e.1 = q
    · rw [if_pos he] at h
      injection h with h2
      rw [← he, ← h2]
      exact List.mem_cons_self _ _
    · rw [if_neg he] at h
      exact List.mem_cons_of_mem _ (ih h)

theorem freshUnder_spec {fs : FS} {p : FPath} (h : freshUnder fs p = true) :
    ∀ q, pathLe p q = true → lookupFS fs q = none := by
  intro q hq
  cases hl : lookupFS fs q with
  | none => rfl
  | some o =>
    have hall := List.all_eq_true.mp h _ (lookupFS_mem hl)
    simp [hq] at hall

theorem noSymUnder_spec {fs : FS} {p : FPath} (h : noSymUnder fs p = true) :
    ∀ q, pathLe p q = true → lookupFS fs q ≠ some FSObj.symlink := by
  intro q hq hl
  have hall := List.all_eq_true.mp h _ (lookupFS_mem hl)
  simp [hq] at hall

theorem countUnder_le (fs : FS) (p : FPath) : countUnder fs p ≤ fs.length :=
  List.length_filter_le _ _

/-- C4: Recursive copy fidelity.  Running copyRecursiveSync with enough fuel
on a source tree free of symlinks, into a fresh destination outside the
source, mirrors every reachable source entry at the destination, starts its
trace by creating the destination directory, and creates every directory
before any file is copied into it. -/
theorem c4_recursive_copy_fidelity (src dest : FPath) (fs : FS)
    (hnd : (fs.map Prod.fst).Nodup)
    (h1 : pathLe src dest = false) (h2 : pathLe dest src = false)
    (hfresh : freshUnder fs dest = true)
    (hnosym : noSymUnder fs src = true)
    (hdne : dest ≠ []) :
    (∀ rel, rel ≠ [] → chainFS fs src rel = true →
      lookupFS (copyRecursiveSync (fs.length + 1) src dest (fs, [])).1
          (dest ++ rel) =
        lookupFS fs (src ++ rel)) ∧
    (∃ seg, (copyRecursiveSync (fs.length + 1) src dest (fs, [])).2 =
      Event.mkdir dest :: seg) ∧
    OrderedTrace (copyRecursiveSync (fs.length + 1) src dest (fs, [])).2 :=
  copy_mirror (fs.length + 1) src dest fs hnd
    (Nat.lt_succ_of_le (countUnder_le fs src)) h1 h2
    (freshUnder_spec hfresh) (noSymUnder_spec hnosym) hdne

/-- C4 witness: the spec scenario, a source with index.js, lib/helper.js and
package.json copied to a fresh destination; the nested file is mirrored,
the trace opens by creating the destination, and it is ordered. -/
theorem c4_witness :
    lookupFS (copyRecursiveSync
        (([(["s"], FSObj.dir), (["s", "index.js"], FSObj.file 1),
          (["s", "lib"], FSObj.dir), (["s", "lib", "helper.js"], FSObj.file 2),
          (["s", "package.json"], FSObj.file 3)] : FS).length + 1)
        ["s"] ["d"]
        ([(["s"], FSObj.dir), (["s", "index.js"], FSObj.file 1),
          (["s", "lib"], FSObj.dir), (["s", "lib", "helper.js"], FSObj.file 2),
          (["s", "package.json"], FSObj.file 3)], [])).1
      ["d", "lib", "helper.js"] = some (FSObj.file 2) ∧
    (∃ seg, (copyRecursiveSync
        (([(["s"], FSObj.dir), (["s", "index.js"], FSObj.file 1),
          (["s", "lib"], FSObj.dir), (["s", "lib", "helper.js"], FSObj.file 2),
          (["s", "package.json"], FSObj.file 3)] : FS).length + 1)
        ["s"] ["d"]
        ([(["s"], FSObj.dir), (["s", "index.js"], FSObj.file 1),
          (["s", "lib"], FSObj.dir), (["s", "lib", "helper.js"], FSObj.file 2),
          (["s", "package.json"], FSObj.file 3)], [])).2 =
      Event.mkdir ["d"] :: seg) ∧
    OrderedTrace (copyRecursiveSync
        (([(["s"], FSObj.dir), (["s", "index.js"], FSObj.file 1),
          (["s", "lib"], FSObj.dir), (["s", "lib", "helper.js"], FSObj.file 2),
          (["s", "package.json"], FSObj.file 3)] : FS).length + 1)
        ["s"] ["d"]
        ([(["s"], FSObj.dir), (["s", "index.js"], FSObj.file 1),
          (["s", "lib"], FSObj.dir), (["s", "lib", "helper.js"], FSObj.file 2),
          (["s", "package.json"], FSObj.file 3)], [])).2 := by
  have h := c4_recursive_copy_fidelity ["s"] ["d"]
    [(["s"], FSObj.dir), (["s", "index.js"], FSObj.file 1),
      (["s", "lib"], FSObj.dir), (["s", "lib", "helper.js"], FSObj.file 2),
      (["s", "package.json"], FSObj.file 3)]
    (by decide) (by decide) (by decide) (by decide) (by decide) (by decide)
  exact ⟨(h.1 ["lib", "helper.js"] (by decide) (by decide)).trans (by decide),
    h.2.1, h.2.2⟩

/-! CLI option wiring: the names the CLI passes versus the names the
library destructures. -/

/-- C3: CLI flag wiring is broken.  The CLI builds its options object with
the keys silently and install, but the library destructures silent and
noInstall, so for any argument list those two options default to false:
with --silent and --no-install on the command line the library still reads
silent as false and noInstall as false (only dev is wired through), and a
concrete run with --silent still emits the informational warning line that
the claim says is suppressed. -/
theorem c3_cli_flag_wiring :
    getBoolOpt (cliOptions ["--silent", "--no-install"]) "silent" = false ∧
    getBoolOpt (cliOptions ["--silent", "--no-install"]) "noInstall" = false ∧
    getBoolOpt (cliOptions ["--silent", "--no-install"]) "silently" = true ∧
    getBoolOpt (cliOptions ["--silent", "--no-install"]) "install" = true ∧
    getBoolOpt (cliOptions ["--dev"]) "dev" = true ∧
    (runCli
        ⟨["p"], fun _ => ["s"],
          fun _ => some ⟨some [("a", JSValue.str "file:../s")], none, none, none⟩,
          fun _ => 0⟩
        ["--silent"] [(["p", "package.json"], FSObj.file 10)]).output =
      [Event.log "[WARN] a not found in node_modules" "warn"] := by
  refine ⟨by decide, by decide, by decide, by decide, by decide, ?_⟩
  rfl

/-! Install command wiring. -/

theorem processDep_noInstall_filter_isSpawn (env : Env) (silent dev : Bool)
    (st : FS × List Event) (dep : String × JSValue) :
    (processDep env silent true dev st dep).2.filter isSpawn =
      st.2.filter isSpawn := by
  obtain ⟨fs, tr⟩ := st
  obtain ⟨name, v⟩ := dep
  cases hl : lookupFS fs (storeEntry env name) with
  | none =>
    rw [processDep_missing hl]
    simp [List.filter_append, log_filter_isSpawn]
  | some o =>
    by_cases ho : o = FSObj.symlink
    · subst ho
      rw [processDep_symlink hl, if_pos rfl, replacedState,
        copy_filter_trace isSpawn (fun p => rfl) (fun a b => rfl)]
      simp [List.filter_append, log_filter_isSpawn, isSpawn]
    · rw [processDep_not_symlink hl ho]
      simp [List.filter_append, log_filter_isSpawn]

theorem processFold_noSpawn (env : Env) (silent dev : Bool)
    (L : List (String × JSValue)) :
    ∀ st : FS × List Event,
    (L.foldl (processDep env silent true dev) st).2.filter isSpawn =
      st.2.filter isSpawn := by
  induction L with
  | nil => intro st; rfl
  | cons d L ih =>
    intro st
    rw [List.foldl_cons, ih, processDep_noInstall_filter_isSpawn]

/-- C5: Install command wiring.  When the installer reaches its run step
(manifest present, no dependency store yet) the only command it issues is
npm with arguments install, no-audit, no-fund, plus the production flag
exactly when dev is false, in working directory dest; the per-dependency
step hands the installer the store entry of the dependency as that
directory; and when noInstall is set a whole successful run issues no
command at all. -/
theorem c5_install_command_wiring (env : Env) :
    (∀ (dest : FPath) (dev silent : Bool) (fs : FS) (tr : List Event),
      existsSync fs (dest ++ ["package.json"]) = true →
      existsSync fs (dest ++ ["node_modules"]) = false →
      (installDependencies env dest dev silent fs tr).2.filter isSpawn =
        tr.filter isSpawn ++ [Event.spawn "npm" (npmArgs dev) dest]) ∧
    (∀ (silent dev : Bool) (fs : FS) (tr : List Event) (name : String)
        (v : JSValue),
      lookupFS fs (storeEntry env name) = some FSObj.symlink →
      processDep env silent false dev (fs, tr) (name, v) =
        installDependencies env (storeEntry env name) dev silent
          (replacedState env silent fs tr name v).1
          (replacedState env silent fs tr name v).2) ∧
    (∀ (opts : List (String × Bool)) (fs : FS) (r : FS × List Event),
      getBoolOpt opts "noInstall" = true →
      unlinkLocalDependencies env opts fs = Except.ok r →
      r.2.filter isSpawn = []) := by
  refine ⟨?_, ?_, ?_⟩
  · intro dest dev silent fs tr h1 h2
    rw [installDependencies_run_filter_isSpawn h1 h2, npmArgs_eq]
  · intro silent dev fs tr name v hl
    rw [processDep_symlink hl]
    rfl
  · intro opts fs r hni hok
    cases hc : readFileSync fs (env.projectRoot ++ ["package.json"]) with
    | none =>
      rw [unlink_err_missing hc] at hok
      exact Except.noConfusion hok
    | some content =>
      cases hp : env.parse content with
      | none =>
        rw [unlink_err_parse hc hp] at hok
        exact Except.noConfusion hok
      | some pkg =>
        rw [unlink_ok hc hp, hni] at hok
        injection hok with hok
        rw [← hok, processFold_noSpawn]
        rfl

/-- C5 witness: a concrete installer run issues exactly the production
install command in the destination, and a concrete noInstall run ends with
no command issued. -/
theorem c5_witness :
    (installDependencies ⟨["p"], fun _ => ["s"], fun _ => none, fun _ => 0⟩
        ["d"] false false [(["d", "package.json"], FSObj.file 1)] []).2.filter
        isSpawn =
      ([] : List Event).filter isSpawn ++
        [Event.spawn "npm" (npmArgs false) ["d"]] ∧
    (([(["p", "package.json"], FSObj.file 10)] : FS),
        ([Event.log "[WARN] a not found in node_modules" "warn"] :
          List Event)).2.filter isSpawn = [] := by
  constructor
  · exact (c5_install_command_wiring
      ⟨["p"], fun _ => ["s"], fun _ => none, fun _ => 0⟩).1
      ["d"] false false [(["d", "package.json"], FSObj.file 1)] []
      (by decide) (by decide)
  · exact (c5_install_command_wiring
      ⟨["p"], fun _ => ["s"],
        fun _ => some ⟨some [("a", JSValue.str "file:../s")], none, none, none⟩,
        fun _ => 0⟩).2.2
      [("noInstall", true)] [(["p", "package.json"], FSObj.file 10)]
      ([(["p", "package.json"], FSObj.file 10)],
        [Event.log "[WARN] a not found in node_modules" "warn"])
      (by decide) rfl

/-! Fatal manifest handling and the CLI exit protocol. -/

/-- C7: Fatal manifest.  A missing or unparsable project manifest makes the
engine return an error before any per-dependency processing (the error
carries no new state); the CLI turns any engine error into an error line
and exit status 1 with the store untouched, and a normal completion into a
success line and exit status 0. -/
theorem c7_fatal_manifest (env : Env) (opts : List (String × Bool))
    (args : List String) (fs : FS) :
    (readFileSync fs (env.projectRoot ++ ["package.json"]) = none →
      unlinkLocalDependencies env opts fs =
        Except.error "ENOENT: no such file or directory") ∧
    (∀ content, readFileSync fs (env.projectRoot ++ ["package.json"]) =
        some content →
      env.parse content = none →
      unlinkLocalDependencies env opts fs =
        Except.error "Unexpected token in JSON") ∧
    ((args.contains "--help" || args.contains "-h") = false →
      ∀ e, unlinkLocalDependencies env (cliOptions args) fs = Except.error e →
      runCli env args fs =
        { exitCode := 1, fs := fs,
          output := log ("Error unlinking local dependencies: " ++ e) "error"
            (args.contains "--silent") }) ∧
    ((args.contains "--help" || args.contains "-h") = false →
      ∀ fs1 tr,
      unlinkLocalDependencies env (cliOptions args) fs = Except.ok (fs1, tr) →
      runCli env args fs =
        { exitCode := 0, fs := fs1,
          output := tr ++ log "Local dependencies unlinked successfully." "log"
            (args.contains "--silent") }) := by
  refine ⟨?_, ?_, ?_, ?_⟩
  · intro hc
    exact unlink_err_missing hc
  · intro content hc hp
    exact unlink_err_parse hc hp
  · intro hh e hu
    unfold runCli
    rw [hh, hu]
    rfl
  · intro hh fs1 tr hu
    unfold runCli
    rw [hh, hu]
    rfl

/-- C7 witness: a concrete project with no manifest makes the engine error
and the CLI exit with status 1 leaving the store unchanged, while a
concrete normal run exits with status 0 and a success line. -/
theorem c7_witness :
    unlinkLocalDependencies
      ⟨["p"], fun _ => ["s"], fun _ => none, fun _ => 0⟩ [] [] =
      Except.error "ENOENT: no such file or directory" ∧
    runCli ⟨["p"], fun _ => ["s"], fun _ => none, fun _ => 0⟩ [] [] =
      { exitCode := 1, fs := [],
        output := [Event.log
          ("Error unlinking local dependencies: " ++
            "ENOENT: no such file or directory") "error"] } ∧
    runCli
      ⟨["p"], fun _ => ["s"],
        fun _ => some ⟨some [("a", JSValue.str "file:../s")], none, none, none⟩,
        fun _ => 0⟩
      [] [(["p", "package.json"], FSObj.file 10)] =
      { exitCode := 0, fs := [(["p", "package.json"], FSObj.file 10)],
        output := [Event.log "[WARN] a not found in node_modules" "warn",
          Event.log "Local dependencies unlinked successfully." "log"] } := by
  refine ⟨?_, ?_, ?_⟩
  · exact (c7_fatal_manifest
      ⟨["p"], fun _ => ["s"], fun _ => none, fun _ => 0⟩ [] [] []).1 rfl
  · exact (c7_fatal_manifest
      ⟨["p"], fun _ => ["s"], fun _ => none, fun _ => 0⟩ (cliOptions []) []
      []).2.2.1 (by decide) "ENOENT: no such file or directory" rfl
  · exact (c7_fatal_manifest
      ⟨["p"], fun _ => ["s"],
        fun _ => some ⟨some [("a", JSValue.str "file:../s")], none, none, none⟩,
        fun _ => 0⟩ (cliOptions []) []
      [(["p", "package.json"], FSObj.file 10)]).2.2.2 (by decide)
      [(["p", "package.json"], FSObj.file 10)]
      [Event.log "[WARN] a not found in node_modules" "warn"] rfl

/-! Installer self-containment and isolation across install failures. -/

theorem processDep_status (pr : FPath) (res : String → FPath)
    (par : Nat → Option Manifest) (s1 s2 : FPath → Int) (sil nI d : Bool)
    (fs : FS) (dep : String × JSValue) :
    (processDep ⟨pr, res, par, s1⟩ sil nI d (fs, []) dep).1 =
      (processDep ⟨pr, res, par, s2⟩ sil nI d (fs, []) dep).1 ∧
    (processDep ⟨pr, res, par, s1⟩ sil nI d (fs, []) dep).2.filter isMutation =
      (processDep ⟨pr, res, par, s2⟩ sil nI d (fs, []) dep).2.filter
        isMutation := by
  obtain ⟨name, v⟩ := dep
  have hse : storeEntry ⟨pr, res, par, s1⟩ name =
      storeEntry ⟨pr, res, par, s2⟩ name := rfl
  cases hl : lookupFS fs (storeEntry ⟨pr, res, par, s1⟩ name) with
  | none =>
    rw [processDep_missing hl, processDep_missing (hse ▸ hl)]
    exact ⟨rfl, rfl⟩
  | some o =>
    by_cases ho : o = FSObj.symlink
    · subst ho
      rw [processDep_symlink hl, processDep_symlink (hse ▸ hl)]
      have hrs : replacedState ⟨pr, res, par, s1⟩ sil fs [] name v =
          replacedState ⟨pr, res, par, s2⟩ sil fs [] name v := rfl
      by_cases hni : nI = true
      · rw [if_pos hni, if_pos hni, hrs]
        exact ⟨rfl, rfl⟩
      · rw [if_neg hni, if_neg hni, hrs, hse]
        refine ⟨by rw [installDependencies_fs, installDependencies_fs], ?_⟩
        by_cases h1 : existsSync
            (replacedState ⟨pr, res, par, s2⟩ sil fs [] name v).1
            (storeEntry ⟨pr, res, par, s2⟩ name ++ ["package.json"]) = true
        · by_cases h2 : existsSync
              (replacedState ⟨pr, res, par, s2⟩ sil fs [] name v).1
              (storeEntry ⟨pr, res, par, s2⟩ name ++ ["node_modules"]) = true
          · rw [installDependencies_filter_isMutation_skip (Or.inr h2),
              installDependencies_filter_isMutation_skip (Or.inr h2)]
          · rw [installDependencies_filter_isMutation_run h1
                (Bool.eq_false_iff.mpr h2),
              installDependencies_filter_isMutation_run h1
                (Bool.eq_false_iff.mpr h2)]
        · rw [installDependencies_filter_isMutation_skip
              (Or.inl (Bool.eq_false_iff.mpr h1)),
            installDependencies_filter_isMutation_skip
              (Or.inl (Bool.eq_false_iff.mpr h1))]
    · rw [processDep_not_symlink hl ho, processDep_not_symlink (hse ▸ hl) ho]
      exact ⟨rfl, rfl⟩

theorem processFold_status (pr : FPath) (res : String → FPath)
    (par : Nat → Option Manifest) (s1 s2 : FPath → Int) (sil nI d : Bool)
    (L : List (String × JSValue)) :
    ∀ (fs : FS) (t1 t2 : List Event),
    t1.filter isMutation = t2.filter isMutation →
    (L.foldl (processDep ⟨pr, res, par, s1⟩ sil nI d) (fs, t1)).1 =
      (L.foldl (processDep ⟨pr, res, par, s2⟩ sil nI d) (fs, t2)).1 ∧
    (L.foldl (processDep ⟨pr, res, par, s1⟩ sil nI d) (fs, t1)).2.filter
        isMutation =
      (L.foldl (processDep ⟨pr, res, par, s2⟩ sil nI d) (fs, t2)).2.filter
        isMutation := by
  induction L with
  | nil =>
    intro fs t1 t2 h
    exact ⟨rfl, h⟩
  | cons d0 L ih =>
    intro fs t1 t2 h
    rw [List.foldl_cons, List.foldl_cons,
      processDep_trace_norm ⟨pr, res, par, s1⟩ sil nI d fs t1 d0,
      processDep_trace_norm ⟨pr, res, par, s2⟩ sil nI d fs t2 d0]
    obtain ⟨hf, hm⟩ := processDep_status pr res par s1 s2 sil nI d fs d0
    rw [hf]
    exact ih _ _ _ (by rw [List.filter_append, List.filter_append, h, hm])

/-- C6: Installer self-containment and isolation.  The installer is a total
function that never raises: with no manifest in the destination it only
logs a skip, with the dependency store already present it only logs a
skip, and a non-zero exit status of the install command only logs an error
while in every case the filesystem is returned unchanged; moreover a whole
successful run reaches the same final filesystem and the same mutations
whatever exit statuses the install commands report, so one dependency
failing to install never affects how the other dependencies are
processed. -/
theorem c6_installer_isolation :
    (∀ (env : Env) (dest : FPath) (dev silent : Bool) (fs : FS)
        (tr : List Event),
      existsSync fs (dest ++ ["package.json"]) = false →
      installDependencies env dest dev silent fs tr =
        (fs, tr ++ log ("[SKIP] No package.json in " ++ pathToString dest)
          "log" silent)) ∧
    (∀ (env : Env) (dest : FPath) (dev silent : Bool) (fs : FS)
        (tr : List Event),
      existsSync fs (dest ++ ["package.json"]) = true →
      existsSync fs (dest ++ ["node_modules"]) = true →
      installDependencies env dest dev silent fs tr =
        (fs, tr ++ log ("[SKIP] Dependencies already present for " ++
          basename dest) "log" silent)) ∧
    (∀ (env : Env) (dest : FPath) (dev : Bool) (fs : FS) (tr : List Event),
      existsSync fs (dest ++ ["package.json"]) = true →
      existsSync fs (dest ++ ["node_modules"]) = false →
      env.status dest ≠ 0 →
      (installDependencies env dest dev false fs tr).1 = fs ∧
      Event.log ("[ERROR] Failed to install dependencies for " ++
          basename dest) "error" ∈ (installDependencies env dest dev false fs tr).2) ∧
    (∀ (pr : FPath) (res : String → FPath) (par : Nat → Option Manifest)
        (s1 s2 : FPath → Int) (opts : List (String × Bool)) (fs fs1 : FS)
        (tr1 : List Event),
      unlinkLocalDependencies ⟨pr, res, par, s1⟩ opts fs =
        Except.ok (fs1, tr1) →
      ∃ tr2, unlinkLocalDependencies ⟨pr, res, par, s2⟩ opts fs =
        Except.ok (fs1, tr2) ∧
        tr1.filter isMutation = tr2.filter isMutation) := by
  refine ⟨?_, ?_, ?_, ?_⟩
  · intro env dest dev silent fs tr h
    exact installDependencies_skip_pkg h
  · intro env dest dev silent fs tr h1 h2
    exact installDependencies_skip_nm h1 h2
  · intro env dest dev fs tr h1 h2 hst
    refine ⟨installDependencies_fs env dest dev false fs tr, ?_⟩
    rw [installDependencies_run h1 h2, if_pos hst]
    simp [log]
  · intro pr res par s1 s2 opts fs fs1 tr1 hok
    cases hc : readFileSync fs (pr ++ ["package.json"]) with
    | none =>
      rw [unlink_err_missing hc] at hok
      exact Except.noConfusion hok
    | some content =>
      cases hp : par content with
      | none =>
        rw [unlink_err_parse hc hp] at hok
        exact Except.noConfusion hok
      | some pkg =>
        rw [unlink_ok hc hp] at hok
        injection hok with hok
        obtain ⟨hf, hm⟩ := processFold_status pr res par s1 s2
          (getBoolOpt opts "silent") (getBoolOpt opts "noInstall")
          (getBoolOpt opts "dev")
          ((mergedDeps pkg).filter fun e => isFileSpec e.2) fs [] [] rfl
        have hfs1 : (((mergedDeps pkg).filter fun e => isFileSpec e.2).foldl
            (processDep ⟨pr, res, par, s1⟩ (getBoolOpt opts "silent")
              (getBoolOpt opts "noInstall") (getBoolOpt opts "dev"))
            (fs, [])).1 = fs1 := by rw [hok]
        have htr1 : (((mergedDeps pkg).filter fun e => isFileSpec e.2).foldl
            (processDep ⟨pr, res, par, s1⟩ (getBoolOpt opts "silent")
              (getBoolOpt opts "noInstall") (getBoolOpt opts "dev"))
            (fs, [])).2 = tr1 := by rw [hok]
        refine ⟨(((mergedDeps pkg).filter fun e => isFileSpec e.2).foldl
          (processDep ⟨pr, res, par, s2⟩ (getBoolOpt opts "silent")
            (getBoolOpt opts "noInstall") (getBoolOpt opts "dev"))
          (fs, [])).2, ?_, ?_⟩
        · rw [unlink_ok hc hp, ← hfs1, hf]
        · rw [← htr1]
          exact hm

/-- C6 witness: a concrete failing install (exit status 1) leaves the
filesystem unchanged and logs the error, and a concrete run reports the
same final filesystem and mutations under a failing status oracle as under
a succeeding one. -/
theorem c6_witness :
    (installDependencies ⟨["p"], fun _ => ["s"], fun _ => none, fun _ => 1⟩
        ["d"] false false [(["d", "package.json"], FSObj.file 1)] []).1 =
      [(["d", "package.json"], FSObj.file 1)] ∧
    Event.log ("[ERROR] Failed to install dependencies for " ++ basename ["d"])
        "error" ∈
      (installDependencies ⟨["p"], fun _ => ["s"], fun _ => none, fun _ => 1⟩
        ["d"] false false [(["d", "package.json"], FSObj.file 1)] []).2 ∧
    ∃ tr2,
      unlinkLocalDependencies
        ⟨["p"], fun _ => ["s"],
          fun _ => some ⟨some [("a", JSValue.str "file:../s")], none, none, none⟩,
          fun _ => 0⟩ [] [(["p", "package.json"], FSObj.file 10)] =
        Except.ok ([(["p", "package.json"], FSObj.file 10)], tr2) ∧
      ([Event.log "[WARN] a not found in node_modules" "warn"] :
          List Event).filter isMutation = tr2.filter isMutation := by
  refine ⟨?_, ?_, ?_⟩
  · exact (c6_installer_isolation.2.2.1
      ⟨["p"], fun _ => ["s"], fun _ => none, fun _ => 1⟩ ["d"] false
      [(["d", "package.json"], FSObj.file 1)] []
      (by decide) (by decide) (by decide)).1
  · exact (c6_installer_isolation.2.2.1
      ⟨["p"], fun _ => ["s"], fun _ => none, fun _ => 1⟩ ["d"] false
      [(["d", "package.json"], FSObj.file 1)] []
      (by decide) (by decide) (by decide)).2
  · exact c6_installer_isolation.2.2.2 ["p"] (fun _ => ["s"])
      (fun _ => some ⟨some [("a", JSValue.str "file:../s")], none, none, none⟩)
      (fun _ => 1) (fun _ => 0) [] [(["p", "package.json"], FSObj.file 10)]
      [(["p", "package.json"], FSObj.file 10)]
      [Event.log "[WARN] a not found in node_modules" "warn"] rfl

/-- C8 witness: after a concrete successful run the rerun on its result
succeeds, returns the same filesystem, and performs no mutation. -/
theorem c8_witness :
    ∃ tr2, unlinkLocalDependencies
        ⟨["p"], fun _ => ["s"],
          fun _ => some ⟨some [("a", JSValue.str "file:../s")], none, none, none⟩,
          fun _ => 0⟩ []
        [(["p", "package.json"], FSObj.file 10),
          (["p", "node_modules", "a"], FSObj.dir)] =
      Except.ok ([(["p", "package.json"], FSObj.file 10),
        (["p", "node_modules", "a"], FSObj.dir)], tr2) ∧
      tr2.filter isMutation = [] := by
  exact c8_idempotence
    ⟨["p"], fun _ => ["s"],
      fun _ => some ⟨some [("a", JSValue.str "file:../s")], none, none, none⟩,
      fun _ => 0⟩ []
    [(["p", "package.json"], FSObj.file 10),
      (["p", "node_modules", "a"], FSObj.dir)]
    [(["p", "package.json"], FSObj.file 10),
      (["p", "node_modules", "a"], FSObj.dir)]
    [Event.log "[SKIP] a is not a symlink" "log"] rfl
